import Mathlib

set_option linter.unusedSectionVars false
set_option linter.unusedVariables false

/-!
Verification development for the ML_Prefetcher repository.

The development shallowly embeds the two core components:

* `Vocab` and `build_vocabs` from `src/repro/vocab.py`: a bidirectional
  mapping between raw categorical keys and dense integer codes, with
  insertion-order code assignment, a fallback ("unknown") code equal to the
  current size, and frequency-based vocabulary construction on top of the
  pandas operations `drop_duplicates`, `value_counts` and `nlargest`.

* `ClusteringLSTM` from `src/repro/clustering_lstm.py`: per-cluster
  routing of LSTM hidden states to independent classification heads, with
  log-softmax, negative-log-likelihood loss accumulation, top-k prediction
  selection, and scatter of the predictions back to the original positions.

Python dictionaries are modelled as association lists that preserve
insertion order; fallible tensor operations (out-of-range indexing,
`torch.topk` with too large `k`, `F.nll_loss` on an empty batch) are
modelled in the `Option` monad, `none` standing for a raised exception.
The learned submodules (`nn.Embedding`, `nn.LSTM`, the per-cluster
`nn.Linear` heads) and the real-analytic function `F.log_softmax` are
carried as function-valued fields of the model structure, constrained by
the shape contracts that torch guarantees for them; the claims under
verification do not depend on their numerical values, only on shapes and
on the routing structure. Rational numbers stand for the real scalars.
-/

namespace MLPrefetcher

/-! ## Vocab (src/repro/vocab.py, class Vocab)

The Python class keeps two dictionaries `key_to_val`, `val_to_key` and a
`counter`.  A Python `dict` is modelled as an association list in
insertion order; `dict.get` is first-match lookup, which coincides with
dict lookup because keys are never inserted twice. -/

structure Vocab (K : Type) where
  key_to_val : List (K × Nat)
  val_to_key : List (Nat × K)
  counter : Nat
deriving DecidableEq

namespace Vocab

variable {K : Type} [DecidableEq K]

/-- The empty vocabulary: `Vocab()` with `all_keys=None`. -/
def empty (K : Type) : Vocab K := ⟨[], [], 0⟩

/-- The admitted keys, in insertion order (the keys of `key_to_val`). -/
def keys (v : Vocab K) : List K := v.key_to_val.map Prod.fst

/-- Embeds `Vocab.get_val`: `self.key_to_val.get(key, self.counter)` —
the assigned code, or the fallback code `counter` for unknown keys. -/
def get_val (v : Vocab K) (key : K) : Nat :=
  match v.key_to_val.find? (fun p => p.1 == key) with
  | some p => p.2
  | none => v.counter

/-- Embeds `Vocab.get_key`: `self.val_to_key.get(val, None)`. -/
def get_key (v : Vocab K) (val : Nat) : Option K :=
  (v.val_to_key.find? (fun p => p.1 == val)).map Prod.snd

/-- Embeds `Vocab.add_key`: if the key is absent, append it with code
`counter` to both dictionaries and increment `counter`. -/
def add_key (v : Vocab K) (key : K) : Vocab K :=
  if (v.key_to_val.find? (fun p => p.1 == key)).isSome then v
  else
    ⟨v.key_to_val ++ [(key, v.counter)],
     v.val_to_key ++ [(v.counter, key)],
     v.counter + 1⟩

/-- Embeds `Vocab.__len__`: the number of distinct admitted keys. -/
def size (v : Vocab K) : Nat := v.counter

/-- Embeds the `Vocab.__init__` loop over `all_keys`: add every key of the
given list in order, starting from an empty vocabulary state `v`. -/
def add_all (v : Vocab K) (ks : List K) : Vocab K := ks.foldl add_key v

/-- Embeds `Vocab(all_keys)`: the constructor adds each key in order. -/
def ofKeys (ks : List K) : Vocab K := add_all (empty K) ks

/-- Well-formedness invariant of a vocabulary: the assigned codes are, in
insertion order, exactly `0, 1, …, counter - 1`; `val_to_key` is the
entrywise swap of `key_to_val`; and no key occurs twice. -/
def Wf (v : Vocab K) : Prop :=
  v.key_to_val.map Prod.snd = List.range v.counter ∧
  v.val_to_key = v.key_to_val.map (fun p => (p.2, p.1)) ∧
  (v.key_to_val.map Prod.fst).Nodup

end Vocab

/-! ## Vocabulary construction (src/repro/vocab.py, build_vocabs)

The pandas column operations used by `build_vocabs` are embedded over
lists: a DataFrame column is the list of its entries in row order. -/

section VocabBuild

variable {K : Type} [DecidableEq K]

/-- Embeds `Series.drop_duplicates`: keep the first occurrence of each
distinct value, in order of first appearance. -/
def drop_duplicates (l : List K) : List K := l.reverse.dedup.reverse

/-- Embeds `Series.value_counts`: the distinct values paired with their
frequency counts, sorted by count in descending order. The sort is stable
(ties stay in the underlying order), which fixes a concrete instance of
the implementation-defined tie order of pandas. -/
def value_counts (l : List K) : List (K × Nat) :=
  ((drop_duplicates l).map (fun k => (k, l.count k))).mergeSort
    (fun a b => decide (b.2 ≤ a.2))

/-- Embeds `make_output_vocab`: `value_counts().nlargest(n).keys()` — as
`value_counts` is already sorted by descending count and `nlargest` keeps
the first of equal counts, the n largest are the first n entries. -/
def make_output_vocab (delta_out : List K) (num_output_deltas : Nat) :
    Vocab K :=
  Vocab.ofKeys (((value_counts delta_out).take num_output_deltas).map
    Prod.fst)

/-- A training-data row with the columns `build_vocabs` reads. -/
structure Row (K : Type) where
  pc : K
  delta_in : K
  delta_out : K
  cluster : Nat

/-- Embeds `build_vocabs data num_clusters num_output_deltas`. The flag
`hasCluster` embeds the runtime column test `"cluster" in data`: when
true, one output vocabulary is built per cluster from the rows of that
cluster; otherwise a single output vocabulary over the whole column. -/
def build_vocabs (data : List (Row K)) (hasCluster : Bool)
    (num_clusters : Nat) (num_output_deltas : Nat) :
    Vocab K × Vocab K × (List (Vocab K) ⊕ Vocab K) :=
  let pc_vocab := Vocab.ofKeys (drop_duplicates (data.map Row.pc))
  let delta_vocab := Vocab.ofKeys
    (((value_counts (data.map Row.delta_in)).filter
      (fun p => 10 ≤ p.2)).map Prod.fst)
  let target_vocab :=
    if hasCluster then
      Sum.inl ((List.range num_clusters).map (fun cluster =>
        make_output_vocab
          ((data.filter (fun r => r.cluster == cluster)).map Row.delta_out)
          num_output_deltas))
    else
      Sum.inr (make_output_vocab (data.map Row.delta_out) num_output_deltas)
  (pc_vocab, delta_vocab, target_vocab)

end VocabBuild

/-- A small crafted data set with a known frequency ordering: cluster 0
holds output deltas 5, 5, 7 and cluster 1 holds output delta 9. -/
def sample_rows : List (Row ℕ) :=
  [⟨0, 0, 5, 0⟩, ⟨0, 0, 5, 0⟩, ⟨0, 0, 7, 0⟩, ⟨0, 0, 9, 1⟩]

/-! ## ClusteringLSTM (src/repro/clustering_lstm.py)

Scalars are rationals (standing for the real float arithmetic); rank-1/2/3
tensors are nested lists.  The learned submodules (the two embedding
tables, the LSTM, the per-cluster heads) and `F.log_softmax` are carried
as function-valued fields constrained by torch's shape contracts; the
claims verified below depend only on shapes and routing, never on the
numerical values these functions produce.  Fallible tensor operations are
modelled in `Option`, `none` standing for a raised exception. -/

abbrev Tensor1 : Type := List ℚ
abbrev Tensor2 : Type := List Tensor1
abbrev Tensor3 : Type := List Tensor2

structure ClusteringLSTM where
  num_pc : Nat
  num_input_delta : Nat
  num_output_delta : List Nat
  embed_dim : Nat
  hidden_dim : Nat
  num_pred : Nat
  num_layers : Nat
  pc_embed : Nat → Tensor1
  delta_embed : Nat → Tensor1
  lstm : Tensor3 → Tensor3 × Tensor3 → Tensor3 × (Tensor3 × Tensor3)
  network : Nat → Tensor1 → Tensor1
  log_softmax : Tensor1 → Tensor1

namespace ClusteringLSTM

/-- The number of classification heads: `len(self.cluster_networks)`,
one per entry of `num_output_delta`. -/
def num_clusters (m : ClusteringLSTM) : Nat := m.num_output_delta.length

/-- Zero-initialized recurrent state for batch size 1: torch uses zeros
of shape (num_layers, batch, hidden_dim) when the given state is None. -/
def zero_state (m : ClusteringLSTM) : Tensor3 × Tensor3 :=
  (List.replicate m.num_layers [List.replicate m.hidden_dim (0 : ℚ)],
   List.replicate m.num_layers [List.replicate m.hidden_dim (0 : ℚ)])

/-- Models `Tensor.squeeze(dim=1)` on a tensor whose dim 1 has size 1
(guaranteed here by the unsqueeze in `forward`). -/
def squeeze_dim1 (t : Tensor3) : Option Tensor2 :=
  t.mapM (fun row => match row with | [v] => some v | _ => none)

/-- Embeds `F.nll_loss` with the default mean reduction on (N, C) log
probabilities: the mean of the negated entries `input[i][target[i]]`. A
class index out of range raises, and the empty batch produces NaN; both
are modelled as `none`. -/
def nll_loss (input : Tensor2) (target : List Nat) : Option ℚ :=
  if input.length = target.length ∧ input.length ≠ 0 then
    match (input.zip target).mapM (fun p => p.1[p.2]?) with
    | none => none
    | some picked => some (-(picked.sum / (picked.length : ℚ)))
  else none

/-- Embeds `torch.topk(xs, k)` (indices component, `sorted=False`): the
positions of the k largest entries, here by a stable descending selection
(torch leaves the order among ties and of the returned indices
unspecified). Raises if k exceeds the dimension size. -/
def topk_indices (xs : Tensor1) (k : Nat) : Option (List Nat) :=
  if k ≤ xs.length then
    some (((xs.enum.mergeSort (fun a b => decide (b.2 ≤ a.2))).take k).map
      Prod.fst)
  else none

/-- The loss accumulation inside the routing loop: `loss +=
F.nll_loss(probabilities, target[orig_indices])` when a target was
supplied, otherwise the accumulator is left unchanged. -/
def step_loss (probabilities : Tensor2) (target : Option (List Nat))
    (orig_indices : List Nat) (loss : ℚ) : Option ℚ :=
  match target with
  | none => some loss
  | some t =>
    match orig_indices.mapM (fun i => t[i]?) with
    | none => none
    | some tgt =>
      match nll_loss probabilities tgt with
      | none => none
      | some l => some (loss + l)

/-- One iteration of the routing loop in `ClusteringLSTM.forward` for a
cluster with at least one position: gather the cluster's hidden states
(`lstm_out[orig_indices]`), apply the cluster's head and `log_softmax`,
squeeze the batch dim, accumulate the nll loss when a target is present,
select the top `num_pred` codes, and scatter them into the output tensor
at the original positions. -/
def cluster_step (m : ClusteringLSTM) (lstm_out : Tensor3)
    (target : Option (List Nat)) (cluster : Nat) (orig_indices : List Nat)
    (loss : ℚ) (outputs : List (List Nat)) :
    Option (ℚ × List (List Nat)) :=
  match orig_indices.mapM (fun i => lstm_out[i]?) with
  | none => none
  | some inputs =>
    match squeeze_dim1 ((inputs.map (fun row => row.map
        (m.network cluster))).map (fun row => row.map m.log_softmax)) with
    | none => none
    | some probabilities =>
      match step_loss probabilities target orig_indices loss with
      | none => none
      | some loss2 =>
        match probabilities.mapM
            (fun row => topk_indices row m.num_pred) with
        | none => none
        | some preds =>
          some (loss2, (orig_indices.zip preds).foldl
            (fun out p => out.set p.1 p.2) outputs)

/-- The routing loop of `forward` over `enumerate(self.cluster_networks)`:
a cluster with no positions in the batch is skipped outright (`continue`),
any other cluster runs `cluster_step`. -/
def run_clusters (m : ClusteringLSTM) (lstm_out : Tensor3)
    (target : Option (List Nat)) :
    List (Nat × List Nat) → ℚ → List (List Nat) →
      Option (ℚ × List (List Nat))
  | [], loss, outputs => some (loss, outputs)
  | (cluster, orig_indices) :: rest, loss, outputs =>
    if orig_indices = [] then
      run_clusters m lstm_out target rest loss outputs
    else
      match cluster_step m lstm_out target cluster orig_indices loss
          outputs with
      | none => none
      | some p => run_clusters m lstm_out target rest p.1 p.2

/-- The mapping built by the `for orig, cluster in enumerate(clusters)`
loop: for each cluster index, the original positions whose label equals
it, in original order. -/
def cluster_indices (n : Nat) (clusters : List Nat) : List (List Nat) :=
  (List.range n).map
    (fun c => (clusters.enum.filter (fun p => p.2 == c)).map Prod.fst)

/-- The embedding-and-concatenation preamble of `forward`: embed the PC
and delta codes, concatenate along the feature dim (`torch.cat`), and
unsqueeze a batch dimension of size 1. -/
def lstm_input (m : ClusteringLSTM) (pc delta : List Nat) : Tensor3 :=
  ((pc.map m.pc_embed).zip (delta.map m.delta_embed)).map
    (fun p => [p.1 ++ p.2])

/-- The recurrent step of `forward`: run the concatenated embeddings
through the shared LSTM with the supplied previous state, or a zero
state when none is given. -/
def lstm_run (m : ClusteringLSTM) (pc delta : List Nat)
    (lstm_state : Option (Tensor3 × Tensor3)) :
    Tensor3 × (Tensor3 × Tensor3) :=
  m.lstm (lstm_input m pc delta) (lstm_state.getD (zero_state m))

/-- Embeds `ClusteringLSTM.forward`. The guard collects the conditions
under which the torch primitives outside the routing loop raise: an
embedding code outside its table, `torch.cat` over different sequence
lengths, and a cluster label outside the `ModuleList` range (IndexError
in the `indices[cluster.item()]` loop). -/
def forward (m : ClusteringLSTM) (X : List Nat × List Nat × List Nat)
    (lstm_state : Option (Tensor3 × Tensor3))
    (target : Option (List Nat)) :
    Option (ℚ × List (List Nat) × (Tensor3 × Tensor3)) :=
  match X with
  | (pc, delta, clusters) =>
    if pc.all (fun c => c < m.num_pc) ∧
        delta.all (fun c => c < m.num_input_delta) ∧
        pc.length = delta.length ∧
        clusters.all (fun c => c < m.num_clusters) then
      (run_clusters m (lstm_run m pc delta lstm_state).1 target
        ((List.range m.num_clusters).zip
          (cluster_indices m.num_clusters clusters))
        0 (List.replicate pc.length (List.replicate m.num_pred 0))).map
        (fun p => (p.1, p.2, (lstm_run m pc delta lstm_state).2))
    else none

/-- Embeds `ClusteringLSTM.predict`: call `forward` with no target under
`torch.no_grad()` (gradient bookkeeping has no observable effect on the
returned values and is not modelled) and return only the predictions and
the updated state. -/
def predict (m : ClusteringLSTM) (X : List Nat × List Nat × List Nat)
    (lstm_state : Option (Tensor3 × Tensor3)) :
    Option (List (List Nat) × (Tensor3 × Tensor3)) :=
  (forward m X lstm_state none).map (fun r => (r.2.1, r.2.2))

/-- The negative-log-likelihood loss of one cluster, computed
independently on that cluster's gathered subset of the LSTM outputs and
the targets (steps 5 and 6 of the forward contract, in isolation). -/
def cluster_loss (m : ClusteringLSTM) (lstm_out : Tensor3) (t : List Nat)
    (cluster : Nat) (orig_indices : List Nat) : Option ℚ :=
  match orig_indices.mapM (fun i => lstm_out[i]?) with
  | none => none
  | some inputs =>
    match squeeze_dim1
        ((inputs.map (fun row => row.map (m.network cluster))).map
          (fun row => row.map m.log_softmax)) with
    | none => none
    | some probabilities =>
      match orig_indices.mapM (fun i => t[i]?) with
      | none => none
      | some tgt => nll_loss probabilities tgt

/-- Shape of a batch-1 LSTM state: (num_layers, 1, hidden_dim) for both
the hidden and the cell component. -/
def StateShape (m : ClusteringLSTM) (s : Tensor3 × Tensor3) : Prop :=
  s.1.length = m.num_layers ∧ s.2.length = m.num_layers ∧
  (∀ row ∈ s.1, row.length = 1 ∧ ∀ v ∈ row, v.length = m.hidden_dim) ∧
  (∀ row ∈ s.2, row.length = 1 ∧ ∀ v ∈ row, v.length = m.hidden_dim)

/-- Shape contract of `nn.LSTM`: on a (T, 1, feature) input it returns a
(T, 1, hidden) output sequence and a batch-1 state of shape
(num_layers, 1, hidden_dim). -/
def LstmShapeOk (m : ClusteringLSTM) : Prop :=
  ∀ input state, (∀ row ∈ input, row.length = 1) →
    (m.lstm input state).1.length = input.length ∧
    (∀ row ∈ (m.lstm input state).1, row.length = 1) ∧
    StateShape m (m.lstm input state).2

/-- Shape contract of the heads `nn.Linear(hidden_dim, num_outputs)` with
dropout: the output width of head c is `num_output_delta[c]`. -/
def NetworkShapeOk (m : ClusteringLSTM) : Prop :=
  ∀ c, c < m.num_clusters →
    ∀ v, (m.network c v).length = m.num_output_delta.getD c 0

/-- Shape contract of `F.log_softmax` along the last dimension: the width
of each row is preserved. -/
def LogSoftmaxShapeOk (m : ClusteringLSTM) : Prop :=
  ∀ v, (m.log_softmax v).length = v.length

/-- Condition on an optional target for one routed cluster: every
gathered position carries a target code inside the width of that
cluster's head (otherwise `F.nll_loss` raises). -/
def TargetOk (m : ClusteringLSTM) (target : Option (List Nat)) (c : Nat)
    (orig_indices : List Nat) : Prop :=
  match target with
  | none => True
  | some t => ∀ i ∈ orig_indices,
      ∃ ti, t[i]? = some ti ∧ ti < m.num_output_delta.getD c 0

end ClusteringLSTM

/-- A concrete instance of the architecture built in `test_net`:
`ClusteringLSTM(4, 4, [4] * 6, 10, 30, num_pred=2)`, with placeholder
weights — every learned submodule returns zeros of its contractual
shape. -/
def test_model : ClusteringLSTM where
  num_pc := 4
  num_input_delta := 4
  num_output_delta := [4, 4, 4, 4, 4, 4]
  embed_dim := 10
  hidden_dim := 30
  num_pred := 2
  num_layers := 2
  pc_embed := fun _ => List.replicate 10 0
  delta_embed := fun _ => List.replicate 10 0
  lstm := fun input _ =>
    (input.map (fun _ => [List.replicate 30 (0 : ℚ)]),
     (List.replicate 2 [List.replicate 30 (0 : ℚ)],
      List.replicate 2 [List.replicate 30 (0 : ℚ)]))
  network := fun _ _ => List.replicate 4 0
  log_softmax := fun v => v.map (fun _ => 0)

namespace Vocab

variable {K : Type} [DecidableEq K]

theorem find?_eq_none_of_not_mem_keys {v : Vocab K} {k : K}
    (h : k ∉ v.keys) : v.key_to_val.find? (fun p => p.1 == k) = none := by
  rw [List.find?_eq_none]
  intro p hp
  simp only [beq_iff_eq]
  intro hpk
  exact h (List.mem_map.mpr ⟨p, hp, hpk⟩)

theorem get_val_of_not_mem {v : Vocab K} {k : K} (h : k ∉ v.keys) :
    v.get_val k = v.counter := by
  unfold get_val
  rw [find?_eq_none_of_not_mem_keys h]

theorem keys_add_key (v : Vocab K) (k : K) :
    (v.add_key k).keys = v.keys ∨ (v.add_key k).keys = v.keys ++ [k] := by
  unfold add_key
  by_cases h : (v.key_to_val.find? (fun p => p.1 == k)).isSome
  · left; rw [if_pos h]
  · right
    rw [if_neg h]
    simp [keys]

theorem mem_keys_add_key {v : Vocab K} {k k2 : K}
    (h : k ∈ (v.add_key k2).keys) : k ∈ v.keys ∨ k = k2 := by
  rcases keys_add_key v k2 with he | he
  · rw [he] at h; exact Or.inl h
  · rw [he] at h
    rcases List.mem_append.mp h with h1 | h1
    · exact Or.inl h1
    · right; simpa using h1

theorem not_mem_keys_add_all {v : Vocab K} {k : K} {ks : List K}
    (hv : k ∉ v.keys) (hks : k ∉ ks) : k ∉ (v.add_all ks).keys := by
  induction ks generalizing v with
  | nil => exact hv
  | cons a l ih =>
    have hne : k ≠ a := by
      intro h; exact hks (h ▸ List.mem_cons_self a l)
    have hkl : k ∉ l := fun h => hks (List.mem_cons_of_mem a h)
    have : k ∉ (v.add_key a).keys := by
      intro h
      rcases mem_keys_add_key h with h1 | h1
      · exact hv h1
      · exact hne h1
    exact ih this hkl

theorem find?_isSome_of_mem_keys {v : Vocab K} {k : K} (h : k ∈ v.keys) :
    (v.key_to_val.find? (fun p => p.1 == k)).isSome := by
  rcases List.mem_map.mp h with ⟨p, hp, hpk⟩
  exact List.find?_isSome.mpr ⟨p, hp, by simpa using hpk⟩

theorem find?_add_key_of_mem {v : Vocab K} {k : K} (k2 : K)
    (h : k ∈ v.keys) :
    (v.add_key k2).key_to_val.find? (fun p => p.1 == k) =
      v.key_to_val.find? (fun p => p.1 == k) := by
  unfold add_key
  by_cases h2 : (v.key_to_val.find? (fun p => p.1 == k2)).isSome
  · rw [if_pos h2]
  · rw [if_neg h2]
    simp only
    rcases Option.isSome_iff_exists.mp (find?_isSome_of_mem_keys h) with ⟨p, hp⟩
    simp [List.find?_append, hp]

theorem get_val_add_key_of_mem {v : Vocab K} {k : K} (k2 : K)
    (h : k ∈ v.keys) : (v.add_key k2).get_val k = v.get_val k := by
  unfold get_val
  rw [find?_add_key_of_mem k2 h]
  rcases Option.isSome_iff_exists.mp (find?_isSome_of_mem_keys h) with ⟨p, hp⟩
  rw [hp]

theorem mem_keys_add_key_of_mem {v : Vocab K} {k : K} (k2 : K)
    (h : k ∈ v.keys) : k ∈ (v.add_key k2).keys := by
  rcases keys_add_key v k2 with he | he
  · rw [he]; exact h
  · rw [he]; exact List.mem_append_left _ h

theorem get_val_add_all_of_mem {v : Vocab K} {k : K} (ks : List K)
    (h : k ∈ v.keys) : (v.add_all ks).get_val k = v.get_val k := by
  induction ks generalizing v with
  | nil => rfl
  | cons a l ih =>
    have h1 : k ∈ (v.add_key a).keys := mem_keys_add_key_of_mem a h
    calc (v.add_all (a :: l)).get_val k
        = ((v.add_key a).add_all l).get_val k := rfl
      _ = (v.add_key a).get_val k := ih h1
      _ = v.get_val k := get_val_add_key_of_mem a h

theorem wf_empty : (empty K).Wf := by
  refine ⟨rfl, rfl, List.nodup_nil⟩

theorem wf_add_key {v : Vocab K} (hw : v.Wf) (k : K) : (v.add_key k).Wf := by
  obtain ⟨h1, h2, h3⟩ := hw
  unfold add_key
  by_cases h : (v.key_to_val.find? (fun p => p.1 == k)).isSome
  · rw [if_pos h]; exact ⟨h1, h2, h3⟩
  · rw [if_neg h]
    have hnm : k ∉ v.keys := by
      intro hk
      exact h (find?_isSome_of_mem_keys hk)
    refine ⟨?_, ?_, ?_⟩
    · simp [h1, List.range_succ]
    · simp [h2]
    · simp only [List.map_append, List.map_cons, List.map_nil]
      rw [List.nodup_append]
      refine ⟨h3, List.nodup_singleton k, ?_⟩
      intro a ha hb
      have hb1 : a = k := by simpa using hb
      exact hnm (hb1 ▸ ha)

theorem wf_add_all {v : Vocab K} (hw : v.Wf) (ks : List K) :
    (v.add_all ks).Wf := by
  induction ks generalizing v with
  | nil => exact hw
  | cons a l ih => exact ih (wf_add_key hw a)

theorem wf_ofKeys (ks : List K) : (ofKeys ks : Vocab K).Wf :=
  wf_add_all wf_empty ks

theorem find?_swap_of_nodup {l : List (K × Nat)}
    (hnd : (l.map Prod.snd).Nodup) {p : K × Nat} (hp : p ∈ l) :
    (l.map (fun q => (q.2, q.1))).find? (fun q => q.1 == p.2) =
      some (p.2, p.1) := by
  induction l with
  | nil => cases hp
  | cons a t ih =>
    simp only [List.map_cons, List.nodup_cons] at hnd
    rcases List.mem_cons.mp hp with he | ht
    · subst he
      simp [List.find?_cons]
    · have hne : a.2 ≠ p.2 := by
        intro h
        exact hnd.1 (h ▸ List.mem_map.mpr ⟨p, ht, rfl⟩)
      rw [List.map_cons, List.find?_cons_of_neg _ (by simpa using hne)]
      exact ih hnd.2 ht

theorem get_key_get_val_of_mem {v : Vocab K} (hw : v.Wf) {k : K}
    (hk : k ∈ v.keys) : v.get_key (v.get_val k) = some k := by
  obtain ⟨h1, h2, _⟩ := hw
  rcases Option.isSome_iff_exists.mp (find?_isSome_of_mem_keys hk) with ⟨p, hp⟩
  have hpk : p.1 = k := by simpa using List.find?_some hp
  have hpm : p ∈ v.key_to_val := List.mem_of_find?_eq_some hp
  have hnd : (v.key_to_val.map Prod.snd).Nodup := by
    rw [h1]; exact List.nodup_range v.counter
  unfold get_key get_val
  rw [hp, h2, find?_swap_of_nodup hnd hpm]
  simp [hpk]

theorem get_key_of_le {v : Vocab K} (hw : v.Wf) {c : Nat}
    (hc : v.counter ≤ c) : v.get_key c = none := by
  obtain ⟨h1, h2, _⟩ := hw
  unfold get_key
  rw [h2]
  have hfind : ((v.key_to_val.map (fun q => (q.2, q.1))).find?
      (fun q => q.1 == c)) = none := by
    rw [List.find?_eq_none]
    intro q hq
    rcases List.mem_map.mp hq with ⟨p, hp, hqe⟩
    have hsnd : p.2 ∈ v.key_to_val.map Prod.snd := List.mem_map.mpr ⟨p, hp, rfl⟩
    rw [h1, List.mem_range] at hsnd
    subst hqe
    simp only [beq_iff_eq]
    omega
  rw [hfind]
  rfl

theorem get_val_add_key_self {v : Vocab K} {k : K} (h : k ∉ v.keys) :
    (v.add_key k).get_val k = v.counter ∧
      (v.add_key k).counter = v.counter + 1 := by
  have hf := find?_eq_none_of_not_mem_keys h
  unfold add_key get_val
  rw [if_neg (by simp [hf])]
  simp [List.find?_append, hf]

theorem add_key_of_isSome {v : Vocab K} {k : K}
    (h : (v.key_to_val.find? (fun p => p.1 == k)).isSome) :
    v.add_key k = v := by
  unfold add_key
  rw [if_pos h]

theorem add_key_idem (v : Vocab K) (k : K) :
    (v.add_key k).add_key k = v.add_key k := by
  apply add_key_of_isSome
  by_cases h : (v.key_to_val.find? (fun p => p.1 == k)).isSome
  · rw [add_key_of_isSome h]
    exact h
  · have hf : v.key_to_val.find? (fun p => p.1 == k) = none := by
      cases hfe : v.key_to_val.find? (fun p => p.1 == k) with
      | none => rfl
      | some p => rw [hfe] at h; simp at h
    unfold add_key
    rw [if_neg h]
    simp [List.find?_append, hf]

theorem keys_add_all_of_nodup {K : Type} [DecidableEq K] {v : Vocab K}
    {ks : List K} (hdis : ∀ k ∈ ks, k ∉ v.keys) (hnd : ks.Nodup) :
    (v.add_all ks).keys = v.keys ++ ks := by
  induction ks generalizing v with
  | nil => simp [add_all]
  | cons a l ih =>
    have ha : a ∉ v.keys := hdis a (List.mem_cons_self a l)
    have hka : (v.add_key a).keys = v.keys ++ [a] := by
      unfold add_key
      rw [if_neg (by simp [find?_eq_none_of_not_mem_keys ha])]
      simp [keys]
    have hdis2 : ∀ k ∈ l, k ∉ (v.add_key a).keys := by
      intro k hk hmem
      rcases mem_keys_add_key hmem with h1 | h1
      · exact hdis k (List.mem_cons_of_mem a hk) h1
      · rw [List.nodup_cons] at hnd
        exact hnd.1 (h1 ▸ hk)
    calc (v.add_all (a :: l)).keys
        = ((v.add_key a).add_all l).keys := rfl
      _ = (v.add_key a).keys ++ l := ih hdis2 (List.nodup_cons.mp hnd).2
      _ = v.keys ++ a :: l := by rw [hka]; simp

theorem keys_ofKeys_of_nodup {K : Type} [DecidableEq K] {ks : List K}
    (hnd : ks.Nodup) : (ofKeys ks : Vocab K).keys = ks := by
  unfold ofKeys
  rw [keys_add_all_of_nodup (fun k _ h => by simp [keys, empty] at h) hnd]
  simp [keys, empty]

theorem size_eq_keys_length {K : Type} [DecidableEq K] {v : Vocab K}
    (hw : v.Wf) : v.size = v.keys.length := by
  obtain ⟨h1, _, _⟩ := hw
  have h2 := congrArg List.length h1
  simpa [keys, size] using h2.symm

theorem size_ofKeys_of_nodup {K : Type} [DecidableEq K] {ks : List K}
    (hnd : ks.Nodup) : (ofKeys ks : Vocab K).size = ks.length := by
  rw [size_eq_keys_length (wf_ofKeys ks), keys_ofKeys_of_nodup hnd]

end Vocab

/-! ## Frequency-based vocabulary construction -/

theorem mem_drop_duplicates {K : Type} [DecidableEq K] {a : K}
    {l : List K} : a ∈ drop_duplicates l ↔ a ∈ l := by
  simp [drop_duplicates]

theorem nodup_drop_duplicates {K : Type} [DecidableEq K] (l : List K) :
    (drop_duplicates l).Nodup := by
  rw [drop_duplicates, List.nodup_reverse]
  exact List.nodup_dedup _

theorem mem_value_counts {K : Type} [DecidableEq K] {p : K × Nat}
    {l : List K} : p ∈ value_counts l ↔ p.1 ∈ l ∧ p.2 = l.count p.1 := by
  rw [value_counts, (List.mergeSort_perm _ _).mem_iff]
  constructor
  · intro h
    rcases List.mem_map.mp h with ⟨k, hk, he⟩
    cases he
    exact ⟨mem_drop_duplicates.mp hk, rfl⟩
  · rintro ⟨h1, h2⟩
    refine List.mem_map.mpr ⟨p.1, mem_drop_duplicates.mpr h1, ?_⟩
    rcases p with ⟨a, b⟩
    simp only at h2
    rw [h2]

theorem value_counts_fst_nodup {K : Type} [DecidableEq K] (l : List K) :
    ((value_counts l).map Prod.fst).Nodup := by
  have hperm : ((value_counts l).map Prod.fst).Perm
      (((drop_duplicates l).map (fun k => (k, l.count k))).map Prod.fst) :=
    (List.mergeSort_perm _ _).map Prod.fst
  rw [hperm.nodup_iff, List.map_map]
  have hid : (Prod.fst ∘ fun k => (k, l.count k)) = id := rfl
  rw [hid, List.map_id]
  exact nodup_drop_duplicates l

theorem value_counts_sorted {K : Type} [DecidableEq K] (l : List K) :
    (value_counts l).Pairwise (fun a b => b.2 ≤ a.2) := by
  have h := @List.sorted_mergeSort (K × Nat)
    (fun a b => decide (b.2 ≤ a.2))
    (fun a b c hab hbc => by
      simp only [decide_eq_true_eq] at hab hbc ⊢
      omega)
    (fun a b => by
      simp only [Bool.or_eq_true, decide_eq_true_eq]
      omega)
    ((drop_duplicates l).map (fun k => (k, l.count k)))
  rw [value_counts]
  exact h.imp (fun hab => by simpa using hab)

theorem value_counts_length {K : Type} [DecidableEq K] (l : List K) :
    (value_counts l).length = (drop_duplicates l).length := by
  rw [value_counts, List.length_mergeSort, List.length_map]

theorem take_value_counts_fst_nodup {K : Type} [DecidableEq K]
    (l : List K) (n : Nat) :
    (((value_counts l).take n).map Prod.fst).Nodup :=
  ((List.take_sublist n _).map Prod.fst).nodup (value_counts_fst_nodup l)

theorem keys_make_output_vocab {K : Type} [DecidableEq K] (l : List K)
    (n : Nat) :
    (make_output_vocab l n).keys = ((value_counts l).take n).map Prod.fst :=
  Vocab.keys_ofKeys_of_nodup (take_value_counts_fst_nodup l n)

theorem size_make_output_vocab_le {K : Type} [DecidableEq K] (l : List K)
    (n : Nat) : (make_output_vocab l n).size ≤ n := by
  rw [make_output_vocab,
    Vocab.size_ofKeys_of_nodup (take_value_counts_fst_nodup l n)]
  simp only [List.length_map, List.length_take]
  omega

theorem mem_keys_make_output_vocab {K : Type} [DecidableEq K] {l : List K}
    {n : Nat} {k : K} :
    k ∈ (make_output_vocab l n).keys ↔
      (k, l.count k) ∈ (value_counts l).take n := by
  rw [keys_make_output_vocab]
  constructor
  · intro h
    rcases List.mem_map.mp h with ⟨p, hp, he⟩
    have hpvc : p ∈ value_counts l := List.take_subset n _ hp
    have hpe := mem_value_counts.mp hpvc
    have : p = (k, l.count k) := by
      rcases p with ⟨a, b⟩
      simp only at he hpe
      rw [he] at hpe ⊢
      rw [hpe.2]
    exact this ▸ hp
  · intro h
    exact List.mem_map.mpr ⟨_, h, rfl⟩

theorem mem_make_output_vocab_of_le {K : Type} [DecidableEq K] {l : List K}
    {n : Nat} (h : (drop_duplicates l).length ≤ n) {k : K} :
    k ∈ (make_output_vocab l n).keys ↔ k ∈ l := by
  rw [keys_make_output_vocab,
    List.take_of_length_le (by rw [value_counts_length]; exact h)]
  constructor
  · intro hm
    rcases List.mem_map.mp hm with ⟨p, hp, he⟩
    exact he ▸ (mem_value_counts.mp hp).1
  · intro hm
    exact List.mem_map.mpr ⟨(k, l.count k),
      mem_value_counts.mpr ⟨hm, rfl⟩, rfl⟩

theorem count_le_of_mem_make_output_vocab {K : Type} [DecidableEq K]
    {l : List K} {n : Nat} {k k2 : K}
    (hk : k ∈ (make_output_vocab l n).keys) (hk2 : k2 ∈ l)
    (hnk2 : k2 ∉ (make_output_vocab l n).keys) :
    l.count k2 ≤ l.count k := by
  have h1 : (k, l.count k) ∈ (value_counts l).take n :=
    mem_keys_make_output_vocab.mp hk
  have h2 : (k2, l.count k2) ∈ value_counts l :=
    mem_value_counts.mpr ⟨hk2, rfl⟩
  have h3 : (k2, l.count k2) ∉ (value_counts l).take n := fun hmem =>
    hnk2 (mem_keys_make_output_vocab.mpr hmem)
  have h2s : (k2, l.count k2) ∈
      (value_counts l).take n ++ (value_counts l).drop n := by
    rw [List.take_append_drop]
    exact h2
  have h4 : (k2, l.count k2) ∈ (value_counts l).drop n := by
    rcases List.mem_append.mp h2s with h | h
    · exact absurd h h3
    · exact h
  have hsorted := value_counts_sorted l
  rw [← List.take_append_drop n (value_counts l)] at hsorted
  exact (List.pairwise_append.mp hsorted).2.2 _ h1 _ h4

/-! ## Option-monad plumbing for the routing loop -/

theorem mapM_cons_some {α β : Type} {f : α → Option β} {a : α}
    {l : List α} {ys : List β} (h : (a :: l).mapM f = some ys) :
    ∃ b bs, f a = some b ∧ l.mapM f = some bs ∧ ys = b :: bs := by
  rw [List.mapM_cons] at h
  cases hfa : f a with
  | none => rw [hfa] at h; cases h
  | some b =>
    rw [hfa] at h
    cases hml : l.mapM f with
    | none => rw [hml] at h; cases h
    | some bs =>
      rw [hml] at h
      exact ⟨b, bs, rfl, rfl, ((Option.some.injEq _ _).mp h).symm⟩

theorem mapM_some_length {α β : Type} {f : α → Option β} {xs : List α}
    {ys : List β} (h : xs.mapM f = some ys) : ys.length = xs.length := by
  induction xs generalizing ys with
  | nil =>
    rw [List.mapM_nil] at h
    rw [← (Option.some.injEq _ _).mp h]
    rfl
  | cons a l ih =>
    rcases mapM_cons_some h with ⟨b, bs, _, hbs, he⟩
    subst he
    simp [ih hbs]

theorem mapM_some_forall {α β : Type} {f : α → Option β} {xs : List α}
    {ys : List β} (h : xs.mapM f = some ys) :
    ∀ y ∈ ys, ∃ x ∈ xs, f x = some y := by
  induction xs generalizing ys with
  | nil =>
    rw [List.mapM_nil] at h
    rw [← (Option.some.injEq _ _).mp h]
    intro y hy
    cases hy
  | cons a l ih =>
    rcases mapM_cons_some h with ⟨b, bs, hb, hbs, he⟩
    subst he
    intro y hy
    rcases List.mem_cons.mp hy with he2 | hm
    · exact ⟨a, List.mem_cons_self a l, he2 ▸ hb⟩
    · rcases ih hbs y hm with ⟨x, hx, hfx⟩
      exact ⟨x, List.mem_cons_of_mem a hx, hfx⟩

theorem mapM_some_of_forall {α β : Type} {f : α → Option β} {xs : List α}
    (h : ∀ x ∈ xs, (f x).isSome) : ∃ ys, xs.mapM f = some ys := by
  induction xs with
  | nil => exact ⟨[], by rw [List.mapM_nil]; rfl⟩
  | cons a l ih =>
    rcases Option.isSome_iff_exists.mp (h a (List.mem_cons_self a l))
      with ⟨b, hb⟩
    rcases ih (fun x hx => h x (List.mem_cons_of_mem a hx)) with ⟨bs, hbs⟩
    refine ⟨b :: bs, ?_⟩
    rw [List.mapM_cons, hb, hbs]
    rfl

theorem mapM_some_isSome {α β : Type} {f : α → Option β} {xs : List α}
    {ys : List β} (h : xs.mapM f = some ys) :
    ∀ x ∈ xs, (f x).isSome := by
  induction xs generalizing ys with
  | nil => intro x hx; cases hx
  | cons a l ih =>
    rcases mapM_cons_some h with ⟨b, bs, hb, hbs, _⟩
    intro x hx
    rcases List.mem_cons.mp hx with he | hm
    · rw [he, hb]; rfl
    · exact ih hbs x hm

/-! ## Scatter (outputs[orig_indices] = preds) -/

theorem length_scatter (ps : List (Nat × List Nat))
    (outputs : List (List Nat)) :
    (ps.foldl (fun out p => out.set p.1 p.2) outputs).length =
      outputs.length := by
  induction ps generalizing outputs with
  | nil => rfl
  | cons a l ih => simp [List.foldl_cons, ih, List.length_set]

theorem mem_scatter {ps : List (Nat × List Nat)}
    {outputs : List (List Nat)} {r : List Nat}
    (h : r ∈ ps.foldl (fun out p => out.set p.1 p.2) outputs) :
    r ∈ outputs ∨ r ∈ ps.map Prod.snd := by
  induction ps generalizing outputs with
  | nil => exact Or.inl h
  | cons a l ih =>
    rcases ih h with h1 | h1
    · rcases List.mem_or_eq_of_mem_set h1 with h2 | h2
      · exact Or.inl h2
      · exact Or.inr (by simp [h2])
    · exact Or.inr (List.mem_cons_of_mem _ h1)

theorem getElem?_scatter_of_not_mem {ps : List (Nat × List Nat)}
    {outputs : List (List Nat)} {i : Nat}
    (h : ∀ p ∈ ps, p.1 ≠ i) :
    (ps.foldl (fun out p => out.set p.1 p.2) outputs)[i]? =
      outputs[i]? := by
  induction ps generalizing outputs with
  | nil => rfl
  | cons a l ih =>
    rw [List.foldl_cons,
      ih (fun p hp => h p (List.mem_cons_of_mem a hp)),
      List.getElem?_set_ne (h a (List.mem_cons_self a l))]

/-! ## The torch primitives of the routing loop -/

namespace ClusteringLSTM

theorem squeeze_dim1_some {t : Tensor3}
    (h : ∀ row ∈ t, row.length = 1) :
    ∃ ps, squeeze_dim1 t = some ps ∧ ps.length = t.length ∧
      ∀ p ∈ ps, [p] ∈ t := by
  have hs : ∀ row ∈ t,
      ((fun row => match row with | [v] => some v | _ => none) row :
        Option Tensor1).isSome := by
    intro row hrow
    match row, h row hrow with
    | [v], _ => rfl
  rcases mapM_some_of_forall hs with ⟨ps, hps⟩
  refine ⟨ps, hps, mapM_some_length hps, ?_⟩
  intro p hp
  rcases mapM_some_forall hps p hp with ⟨row, hrow, hfrow⟩
  match row, h row hrow, hfrow with
  | [v], _, hfrow =>
    have : v = p := by simpa using hfrow
    exact this ▸ hrow

theorem topk_indices_isSome_iff (xs : Tensor1) (k : Nat) :
    (topk_indices xs k).isSome ↔ k ≤ xs.length := by
  unfold topk_indices
  by_cases h : k ≤ xs.length
  · simp [h]
  · simp [h]

theorem topk_indices_length {xs : Tensor1} {k : Nat} {ps : List Nat}
    (h : topk_indices xs k = some ps) : ps.length = k := by
  unfold topk_indices at h
  by_cases hk : k ≤ xs.length
  · rw [if_pos hk] at h
    have he := (Option.some.injEq _ _).mp h
    rw [← he]
    simp only [List.length_map, List.length_take, List.length_mergeSort,
      List.enum_length]
    omega
  · rw [if_neg hk] at h
    cases h

theorem nll_loss_some {input : Tensor2} {target : List Nat}
    (hlen : input.length = target.length) (hne : input ≠ [])
    (hpick : ∀ p ∈ input.zip target, ∃ v, p.1[p.2]? = some v) :
    ∃ l, nll_loss input target = some l := by
  unfold nll_loss
  rw [if_pos ⟨hlen, fun he => hne (List.eq_nil_of_length_eq_zero he)⟩]
  have hs : ∀ p ∈ input.zip target,
      ((fun p => p.1[p.2]?) p : Option ℚ).isSome := by
    intro p hp
    rcases hpick p hp with ⟨v, hv⟩
    simp [hv]
  rcases mapM_some_of_forall hs with ⟨picked, hpicked⟩
  exact ⟨_, by rw [hpicked]⟩

theorem step_loss_some_eq {probabilities : Tensor2} {t : List Nat}
    {orig : List Nat} {loss : ℚ} {tgt : List Nat} {l : ℚ}
    (h1 : orig.mapM (fun i => t[i]?) = some tgt)
    (h2 : nll_loss probabilities tgt = some l) :
    step_loss probabilities (some t) orig loss = some (loss + l) := by
  unfold step_loss
  split
  · next heq => cases heq
  · next tgt2 heq =>
    cases (Option.some.injEq _ _).mp heq
    split
    · next heq2 => rw [h1] at heq2; cases heq2
    · next tgt3 heq2 =>
      rw [h1] at heq2
      cases (Option.some.injEq _ _).mp heq2
      split
      · next heq3 => rw [h2] at heq3; cases heq3
      · next l3 heq3 =>
        rw [h2] at heq3
        rw [(Option.some.injEq _ _).mp heq3]

theorem step_loss_some_inv {probabilities : Tensor2} {t : List Nat}
    {orig : List Nat} {loss loss2 : ℚ}
    (h : step_loss probabilities (some t) orig loss = some loss2) :
    ∃ tgt l, orig.mapM (fun i => t[i]?) = some tgt ∧
      nll_loss probabilities tgt = some l ∧ loss2 = loss + l := by
  unfold step_loss at h
  split at h
  · next heq => cases heq
  next tgt2 heq =>
    cases (Option.some.injEq _ _).mp heq
    split at h
    · cases h
    next tgt heq2 =>
      split at h
      · cases h
      next l heq3 =>
        exact ⟨tgt, l, heq2, heq3, ((Option.some.injEq _ _).mp h).symm⟩

theorem cluster_step_eq_some {m : ClusteringLSTM} {lstm_out : Tensor3}
    {target : Option (List Nat)} {c : Nat} {orig : List Nat} {loss : ℚ}
    {outputs : List (List Nat)} {inputs : Tensor3}
    {probabilities : Tensor2} {loss2 : ℚ} {preds : List (List Nat)}
    (h1 : orig.mapM (fun i => lstm_out[i]?) = some inputs)
    (h2 : squeeze_dim1 ((inputs.map (fun row => row.map
      (m.network c))).map (fun row => row.map m.log_softmax)) =
      some probabilities)
    (h3 : step_loss probabilities target orig loss = some loss2)
    (h4 : probabilities.mapM (fun row => topk_indices row m.num_pred) =
      some preds) :
    cluster_step m lstm_out target c orig loss outputs =
      some (loss2, (orig.zip preds).foldl (fun out p => out.set p.1 p.2)
        outputs) := by
  unfold cluster_step
  split
  · next heq => rw [h1] at heq; cases heq
  next inputs2 heq =>
    rw [h1] at heq
    cases (Option.some.injEq _ _).mp heq
    split
    · next heq2 => rw [h2] at heq2; cases heq2
    next prob2 heq2 =>
      rw [h2] at heq2
      cases (Option.some.injEq _ _).mp heq2
      split
      · next heq3 => rw [h3] at heq3; cases heq3
      next l2 heq3 =>
        rw [h3] at heq3
        cases (Option.some.injEq _ _).mp heq3
        split
        · next heq4 => rw [h4] at heq4; cases heq4
        next preds2 heq4 =>
          rw [h4] at heq4
          cases (Option.some.injEq _ _).mp heq4
          rfl

theorem cluster_step_some_inv {m : ClusteringLSTM} {lstm_out : Tensor3}
    {target : Option (List Nat)} {c : Nat} {orig : List Nat} {loss : ℚ}
    {outputs : List (List Nat)} {r : ℚ × List (List Nat)}
    (h : cluster_step m lstm_out target c orig loss outputs = some r) :
    ∃ inputs probabilities preds,
      orig.mapM (fun i => lstm_out[i]?) = some inputs ∧
      squeeze_dim1 ((inputs.map (fun row => row.map (m.network c))).map
        (fun row => row.map m.log_softmax)) = some probabilities ∧
      step_loss probabilities target orig loss = some r.1 ∧
      probabilities.mapM (fun row => topk_indices row m.num_pred) =
        some preds ∧
      r.2 = (orig.zip preds).foldl (fun out p => out.set p.1 p.2)
        outputs := by
  unfold cluster_step at h
  split at h
  · cases h
  next inputs hinputs =>
    split at h
    · cases h
    next probabilities hprob =>
      split at h
      · cases h
      next loss2 hloss2 =>
        split at h
        · cases h
        next preds hpreds =>
          have he := (Option.some.injEq _ _).mp h
          refine ⟨inputs, probabilities, preds, hinputs, hprob, ?_, hpreds,
            ?_⟩
          · rw [← he]; exact hloss2
          · rw [← he]

theorem probabilities_mem {m : ClusteringLSTM} {c : Nat}
    {inputs : Tensor3} {probabilities : Tensor2}
    (hprob : squeeze_dim1 ((inputs.map (fun row => row.map
      (m.network c))).map (fun row => row.map m.log_softmax)) =
      some probabilities) :
    probabilities.length = inputs.length ∧
      ∀ p ∈ probabilities, ∃ u, p = m.log_softmax (m.network c u) := by
  unfold squeeze_dim1 at hprob
  constructor
  · rw [mapM_some_length hprob]
    simp [List.length_map]
  · intro p hp
    rcases mapM_some_forall hprob p hp with ⟨row, hrowm, hfrow⟩
    cases row with
    | nil => cases hfrow
    | cons v vs =>
      cases vs with
      | cons w ws => cases hfrow
      | nil =>
        have hvp : v = p := by simpa using hfrow
        rcases List.mem_map.mp hrowm with ⟨a, ha, hae⟩
        cases a with
        | nil => simp at hae
        | cons x xs =>
          cases xs with
          | cons y ys => simp at hae
          | nil =>
            rcases List.mem_map.mp ha with ⟨irow, hirow, hie⟩
            cases irow with
            | nil => simp at hie
            | cons u us =>
              cases us with
              | cons z zs => simp at hie
              | nil =>
                refine ⟨u, ?_⟩
                have hx : m.network c u = x := by simpa using hie
                have hv2 : m.log_softmax x = v := by simpa using hae
                rw [← hvp, ← hv2, hx]

theorem probabilities_width {m : ClusteringLSTM} {c : Nat}
    {inputs : Tensor3} {probabilities : Tensor2}
    (hnet : NetworkShapeOk m) (hls : LogSoftmaxShapeOk m)
    (hc : c < m.num_clusters)
    (hprob : squeeze_dim1 ((inputs.map (fun row => row.map
      (m.network c))).map (fun row => row.map m.log_softmax)) =
      some probabilities) :
    ∀ p ∈ probabilities, p.length = m.num_output_delta.getD c 0 := by
  intro p hp
  rcases (probabilities_mem hprob).2 p hp with ⟨u, hu⟩
  rw [hu, hls, hnet c hc]

theorem cluster_step_some_num_pred_le {m : ClusteringLSTM}
    {lstm_out : Tensor3} {target : Option (List Nat)} {c : Nat}
    {orig : List Nat} {loss : ℚ} {outputs : List (List Nat)}
    {r : ℚ × List (List Nat)}
    (hnet : NetworkShapeOk m) (hls : LogSoftmaxShapeOk m)
    (hc : c < m.num_clusters) (horig : orig ≠ [])
    (h : cluster_step m lstm_out target c orig loss outputs = some r) :
    m.num_pred ≤ m.num_output_delta.getD c 0 := by
  obtain ⟨inputs, probabilities, preds, hinputs, hprob, _, hpreds, _⟩ :=
    cluster_step_some_inv h
  have hlen : probabilities.length = orig.length := by
    rw [(probabilities_mem hprob).1, mapM_some_length hinputs]
  have hpos : 0 < probabilities.length := by
    rw [hlen]
    exact List.length_pos.mpr horig
  obtain ⟨p0, hp0⟩ := List.exists_mem_of_length_pos hpos
  have h1 := mapM_some_isSome hpreds p0 hp0
  rw [topk_indices_isSome_iff] at h1
  have h2 := probabilities_width hnet hls hc hprob p0 hp0
  omega

theorem cluster_step_isSome {m : ClusteringLSTM} {lstm_out : Tensor3}
    {target : Option (List Nat)} {c : Nat} {orig : List Nat} (loss : ℚ)
    (outputs : List (List Nat))
    (hrow : ∀ row ∈ lstm_out, row.length = 1)
    (hnet : NetworkShapeOk m) (hls : LogSoftmaxShapeOk m)
    (hc : c < m.num_clusters)
    (hin : ∀ i ∈ orig, i < lstm_out.length)
    (horig : orig ≠ [])
    (hk : m.num_pred ≤ m.num_output_delta.getD c 0)
    (htc : TargetOk m target c orig) :
    (cluster_step m lstm_out target c orig loss outputs).isSome := by
  have hs1 : ∀ i ∈ orig, (lstm_out[i]?).isSome := by
    intro i hi
    rw [List.getElem?_eq_getElem (hin i hi)]
    rfl
  obtain ⟨inputs, hinputs⟩ := mapM_some_of_forall hs1
  have hrows2 : ∀ row ∈ (inputs.map (fun row => row.map
      (m.network c))).map (fun row => row.map m.log_softmax),
      row.length = 1 := by
    intro row hrow2
    rcases List.mem_map.mp hrow2 with ⟨a, ha, hae⟩
    rcases List.mem_map.mp ha with ⟨irow, hirow, hie⟩
    have hmem : irow ∈ lstm_out := by
      rcases mapM_some_forall hinputs irow hirow with ⟨i, _, hfi⟩
      exact List.getElem?_mem hfi
    rw [← hae, ← hie]
    simp [hrow irow hmem]
  obtain ⟨probabilities, hprob, _, _⟩ := squeeze_dim1_some hrows2
  have hwidth := probabilities_width hnet hls hc hprob
  have hplen2 : probabilities.length = orig.length := by
    rw [(probabilities_mem hprob).1, mapM_some_length hinputs]
  have hloss : ∃ loss2,
      step_loss probabilities target orig loss = some loss2 := by
    cases target with
    | none => exact ⟨loss, rfl⟩
    | some t =>
      have htc2 : ∀ i ∈ orig, ∃ ti, t[i]? = some ti ∧
          ti < m.num_output_delta.getD c 0 := htc
      have hs3 : ∀ i ∈ orig, (t[i]?).isSome := by
        intro i hi
        rcases htc2 i hi with ⟨ti, hti, _⟩
        rw [hti]
        rfl
      obtain ⟨tgt, htgt⟩ := mapM_some_of_forall hs3
      have htv : ∀ v ∈ tgt, v < m.num_output_delta.getD c 0 := by
        intro v hv
        rcases mapM_some_forall htgt v hv with ⟨i, hi, hfi⟩
        rcases htc2 i hi with ⟨ti, hti, hlt⟩
        rw [hti] at hfi
        exact ((Option.some.injEq _ _).mp hfi) ▸ hlt
      have hlen3 : probabilities.length = tgt.length := by
        rw [hplen2, ← mapM_some_length htgt]
      have hpne : probabilities ≠ [] := by
        intro he
        rw [he] at hplen2
        exact horig (List.eq_nil_of_length_eq_zero hplen2.symm)
      have hpick : ∀ p ∈ probabilities.zip tgt,
          ∃ v, p.1[p.2]? = some v := by
        intro p hp
        have h1 := (List.of_mem_zip hp).1
        have h2 := (List.of_mem_zip hp).2
        have hw := hwidth p.1 h1
        have hv := htv p.2 h2
        have hlt2 : p.2 < p.1.length := by omega
        exact ⟨_, List.getElem?_eq_getElem hlt2⟩
      obtain ⟨l, hnll⟩ := nll_loss_some hlen3 hpne hpick
      exact ⟨loss + l, step_loss_some_eq htgt hnll⟩
  obtain ⟨loss2, hloss2⟩ := hloss
  have hs4 : ∀ p ∈ probabilities, (topk_indices p m.num_pred).isSome := by
    intro p hp
    rw [topk_indices_isSome_iff, hwidth p hp]
    exact hk
  obtain ⟨preds, hpreds⟩ := mapM_some_of_forall hs4
  rw [cluster_step_eq_some hinputs hprob hloss2 hpreds]
  rfl

theorem preds_row_length {m : ClusteringLSTM} {probabilities : Tensor2}
    {preds : List (List Nat)}
    (hpreds : probabilities.mapM (fun row => topk_indices row m.num_pred)
      = some preds) :
    ∀ pr ∈ preds, pr.length = m.num_pred := by
  intro pr hpr
  rcases mapM_some_forall hpreds pr hpr with ⟨row, _, hfrow⟩
  exact topk_indices_length hfrow

theorem cluster_step_outputs_inv {m : ClusteringLSTM}
    {lstm_out : Tensor3} {target : Option (List Nat)} {c : Nat}
    {orig : List Nat} {loss : ℚ} {outputs : List (List Nat)}
    {r : ℚ × List (List Nat)}
    (h : cluster_step m lstm_out target c orig loss outputs = some r) :
    r.2.length = outputs.length ∧
      (∀ row ∈ r.2, row ∈ outputs ∨ row.length = m.num_pred) ∧
      ∀ i, i ∉ orig → r.2[i]? = outputs[i]? := by
  obtain ⟨inputs, probabilities, preds, _, _, _, hpreds, hr2⟩ :=
    cluster_step_some_inv h
  refine ⟨by rw [hr2, length_scatter], ?_, ?_⟩
  · intro row hrow
    rw [hr2] at hrow
    rcases mem_scatter hrow with h1 | h1
    · exact Or.inl h1
    · rcases List.mem_map.mp h1 with ⟨p, hp, he⟩
      have hpsnd : p.2 ∈ preds := (List.of_mem_zip hp).2
      exact Or.inr (he ▸ preds_row_length hpreds p.2 hpsnd)
  · intro i hi
    rw [hr2]
    apply getElem?_scatter_of_not_mem
    intro p hp he
    exact hi (he ▸ (List.of_mem_zip hp).1)

theorem cluster_loss_eq_some {m : ClusteringLSTM} {lstm_out : Tensor3}
    {t : List Nat} {c : Nat} {orig : List Nat} {inputs : Tensor3}
    {probabilities : Tensor2} {tgt : List Nat} {l : ℚ}
    (h1 : orig.mapM (fun i => lstm_out[i]?) = some inputs)
    (h2 : squeeze_dim1 ((inputs.map (fun row => row.map
      (m.network c))).map (fun row => row.map m.log_softmax)) =
      some probabilities)
    (h3 : orig.mapM (fun i => t[i]?) = some tgt)
    (h4 : nll_loss probabilities tgt = some l) :
    cluster_loss m lstm_out t c orig = some l := by
  unfold cluster_loss
  split
  · next heq => rw [h1] at heq; cases heq
  next inputs2 heq =>
    rw [h1] at heq
    cases (Option.some.injEq _ _).mp heq
    split
    · next heq2 => rw [h2] at heq2; cases heq2
    next prob2 heq2 =>
      rw [h2] at heq2
      cases (Option.some.injEq _ _).mp heq2
      split
      · next heq3 => rw [h3] at heq3; cases heq3
      next tgt2 heq3 =>
        rw [h3] at heq3
        cases (Option.some.injEq _ _).mp heq3
        exact h4

theorem cluster_step_loss_some_t {m : ClusteringLSTM}
    {lstm_out : Tensor3} {t : List Nat} {c : Nat} {orig : List Nat}
    {loss : ℚ} {outputs : List (List Nat)} {r : ℚ × List (List Nat)}
    (h : cluster_step m lstm_out (some t) c orig loss outputs = some r) :
    ∃ l, cluster_loss m lstm_out t c orig = some l ∧ r.1 = loss + l := by
  obtain ⟨inputs, probabilities, preds, hinputs, hprob, hloss2, _, _⟩ :=
    cluster_step_some_inv h
  obtain ⟨tgt, l, htgt, hnll, he⟩ := step_loss_some_inv hloss2
  exact ⟨l, cluster_loss_eq_some hinputs hprob htgt hnll, he⟩

theorem run_clusters_isSome {m : ClusteringLSTM} {lstm_out : Tensor3}
    {target : Option (List Nat)}
    (hrow : ∀ row ∈ lstm_out, row.length = 1)
    (hnet : NetworkShapeOk m) (hls : LogSoftmaxShapeOk m) :
    ∀ (pairs : List (Nat × List Nat)) (loss : ℚ)
      (outputs : List (List Nat)),
      (∀ p ∈ pairs, p.1 < m.num_clusters ∧
        (∀ i ∈ p.2, i < lstm_out.length) ∧
        (p.2 ≠ [] → m.num_pred ≤ m.num_output_delta.getD p.1 0) ∧
        TargetOk m target p.1 p.2) →
      (run_clusters m lstm_out target pairs loss outputs).isSome := by
  intro pairs
  induction pairs with
  | nil => intro loss outputs _; rfl
  | cons head rest ih =>
    intro loss outputs hp
    rcases head with ⟨c, orig⟩
    obtain ⟨hc, hin, hk, htc⟩ := hp (c, orig) (List.mem_cons_self _ _)
    have hrest := fun p h2 => hp p (List.mem_cons_of_mem _ h2)
    unfold run_clusters
    by_cases horig : orig = []
    · rw [if_pos horig]
      exact ih loss outputs hrest
    · rw [if_neg horig]
      cases hcs : cluster_step m lstm_out target c orig loss outputs with
      | none =>
        have hs := cluster_step_isSome loss outputs hrow hnet hls hc hin
          horig (hk horig) htc
        rw [hcs] at hs
        cases hs
      | some q =>
        exact ih q.1 q.2 hrest

theorem run_clusters_some_routed {m : ClusteringLSTM}
    {lstm_out : Tensor3} {target : Option (List Nat)}
    (hnet : NetworkShapeOk m) (hls : LogSoftmaxShapeOk m) :
    ∀ {pairs : List (Nat × List Nat)} {loss : ℚ}
      {outputs : List (List Nat)} {r : ℚ × List (List Nat)},
      (∀ p ∈ pairs, p.1 < m.num_clusters) →
      run_clusters m lstm_out target pairs loss outputs = some r →
      ∀ p ∈ pairs, p.2 ≠ [] →
        m.num_pred ≤ m.num_output_delta.getD p.1 0 := by
  intro pairs
  induction pairs with
  | nil => intro _ _ _ _ _ p hp; cases hp
  | cons head rest ih =>
    intro loss outputs r hc h p hp hpne
    rcases head with ⟨c, orig⟩
    unfold run_clusters at h
    by_cases horig : orig = []
    · rw [if_pos horig] at h
      rcases List.mem_cons.mp hp with he | hm
      · subst he
        exact absurd horig hpne
      · exact ih (fun q hq => hc q (List.mem_cons_of_mem _ hq)) h p hm
          hpne
    · rw [if_neg horig] at h
      cases hcs : cluster_step m lstm_out target c orig loss outputs with
      | none => rw [hcs] at h; exact Option.noConfusion h
      | some q =>
        rw [hcs] at h
        replace h : run_clusters m lstm_out target rest q.1 q.2 = some r :=
          h
        rcases List.mem_cons.mp hp with he | hm
        · subst he
          exact cluster_step_some_num_pred_le hnet hls
            (hc _ (List.mem_cons_self _ _)) horig hcs
        · exact ih (fun q2 hq => hc q2 (List.mem_cons_of_mem _ hq)) h p
            hm hpne

theorem run_clusters_loss_sum {m : ClusteringLSTM} {lstm_out : Tensor3}
    {t : List Nat} :
    ∀ {pairs : List (Nat × List Nat)} {loss : ℚ}
      {outputs : List (List Nat)} {r : ℚ × List (List Nat)},
      run_clusters m lstm_out (some t) pairs loss outputs = some r →
      ∃ ls, (pairs.filter (fun p => !p.2.isEmpty)).mapM
          (fun p => cluster_loss m lstm_out t p.1 p.2) = some ls ∧
        r.1 = loss + ls.sum := by
  intro pairs
  induction pairs with
  | nil =>
    intro loss outputs r h
    replace h : (some (loss, outputs) : Option (ℚ × List (List Nat))) =
      some r := h
    refine ⟨[], by rw [List.filter_nil, List.mapM_nil]; rfl, ?_⟩
    rw [← (Option.some.injEq _ _).mp h]
    simp
  | cons head rest ih =>
    intro loss outputs r h
    rcases head with ⟨c, orig⟩
    unfold run_clusters at h
    by_cases horig : orig = []
    · rw [if_pos horig] at h
      rcases ih h with ⟨ls, hls, he⟩
      refine ⟨ls, ?_, he⟩
      rw [List.filter_cons]
      simp only [horig, List.isEmpty_nil, Bool.not_true]
      exact hls
    · rw [if_neg horig] at h
      cases hcs : cluster_step m lstm_out (some t) c orig loss outputs
        with
      | none => rw [hcs] at h; exact Option.noConfusion h
      | some q =>
        rw [hcs] at h
        replace h : run_clusters m lstm_out (some t) rest q.1 q.2 =
          some r := h
        rcases ih h with ⟨ls, hls, he⟩
        obtain ⟨l, hcl, hq1⟩ := cluster_step_loss_some_t hcs
        refine ⟨l :: ls, ?_, ?_⟩
        · rw [List.filter_cons]
          have hne : (!((c, orig) : Nat × List Nat).2.isEmpty) = true := by
            simp [List.isEmpty_iff, horig]
          rw [if_pos hne, List.mapM_cons, hcl, hls]
          rfl
        · rw [he, hq1, List.sum_cons]
          ring

theorem run_clusters_loss_none {m : ClusteringLSTM}
    {lstm_out : Tensor3} :
    ∀ {pairs : List (Nat × List Nat)} {loss : ℚ}
      {outputs : List (List Nat)} {r : ℚ × List (List Nat)},
      run_clusters m lstm_out none pairs loss outputs = some r →
      r.1 = loss := by
  intro pairs
  induction pairs with
  | nil =>
    intro loss outputs r h
    replace h : (some (loss, outputs) : Option (ℚ × List (List Nat))) =
      some r := h
    rw [← (Option.some.injEq _ _).mp h]
  | cons head rest ih =>
    intro loss outputs r h
    rcases head with ⟨c, orig⟩
    unfold run_clusters at h
    by_cases horig : orig = []
    · rw [if_pos horig] at h
      exact ih h
    · rw [if_neg horig] at h
      cases hcs : cluster_step m lstm_out none c orig loss outputs with
      | none => rw [hcs] at h; exact Option.noConfusion h
      | some q =>
        rw [hcs] at h
        replace h : run_clusters m lstm_out none rest q.1 q.2 = some r :=
          h
        obtain ⟨_, _, _, _, _, hloss2, _, _⟩ := cluster_step_some_inv hcs
        have hq1 : q.1 = loss :=
          ((Option.some.injEq _ _).mp hloss2).symm
        rw [ih h, hq1]

theorem run_clusters_outputs_inv {m : ClusteringLSTM}
    {lstm_out : Tensor3} {target : Option (List Nat)} :
    ∀ {pairs : List (Nat × List Nat)} {loss : ℚ}
      {outputs : List (List Nat)} {r : ℚ × List (List Nat)},
      run_clusters m lstm_out target pairs loss outputs = some r →
      r.2.length = outputs.length ∧
        ∀ row ∈ r.2, row ∈ outputs ∨ row.length = m.num_pred := by
  intro pairs
  induction pairs with
  | nil =>
    intro loss outputs r h
    replace h : (some (loss, outputs) : Option (ℚ × List (List Nat))) =
      some r := h
    rw [← (Option.some.injEq _ _).mp h]
    exact ⟨rfl, fun row hrow => Or.inl hrow⟩
  | cons head rest ih =>
    intro loss outputs r h
    rcases head with ⟨c, orig⟩
    unfold run_clusters at h
    by_cases horig : orig = []
    · rw [if_pos horig] at h
      exact ih h
    · rw [if_neg horig] at h
      cases hcs : cluster_step m lstm_out target c orig loss outputs with
      | none => rw [hcs] at h; exact Option.noConfusion h
      | some q =>
        rw [hcs] at h
        replace h : run_clusters m lstm_out target rest q.1 q.2 = some r :=
          h
        obtain ⟨hlen, hrows, _⟩ := cluster_step_outputs_inv hcs
        obtain ⟨hlen2, hrows2⟩ := ih h
        refine ⟨hlen2.trans hlen, ?_⟩
        intro row hrow
        rcases hrows2 row hrow with h1 | h1
        · exact hrows row h1
        · exact Or.inr h1

theorem run_clusters_getElem?_untouched {m : ClusteringLSTM}
    {lstm_out : Tensor3} {target : Option (List Nat)} {i : Nat} :
    ∀ {pairs : List (Nat × List Nat)} {loss : ℚ}
      {outputs : List (List Nat)} {r : ℚ × List (List Nat)},
      run_clusters m lstm_out target pairs loss outputs = some r →
      (∀ p ∈ pairs, i ∉ p.2) →
      r.2[i]? = outputs[i]? := by
  intro pairs
  induction pairs with
  | nil =>
    intro loss outputs r h _
    replace h : (some (loss, outputs) : Option (ℚ × List (List Nat))) =
      some r := h
    rw [← (Option.some.injEq _ _).mp h]
  | cons head rest ih =>
    intro loss outputs r h hnp
    rcases head with ⟨c, orig⟩
    unfold run_clusters at h
    by_cases horig : orig = []
    · rw [if_pos horig] at h
      exact ih h (fun p hp => hnp p (List.mem_cons_of_mem _ hp))
    · rw [if_neg horig] at h
      cases hcs : cluster_step m lstm_out target c orig loss outputs with
      | none => rw [hcs] at h; exact Option.noConfusion h
      | some q =>
        rw [hcs] at h
        replace h : run_clusters m lstm_out target rest q.1 q.2 = some r :=
          h
        have h1 := (cluster_step_outputs_inv hcs).2.2 i
          (hnp (c, orig) (List.mem_cons_self _ _))
        rw [ih h (fun p hp => hnp p (List.mem_cons_of_mem _ hp)), h1]

theorem cluster_step_congr {m m2 : ClusteringLSTM} {lstm_out : Tensor3}
    {target : Option (List Nat)} {c : Nat} {orig : List Nat} {loss : ℚ}
    {outputs : List (List Nat)}
    (hls : m2.log_softmax = m.log_softmax)
    (hnp : m2.num_pred = m.num_pred)
    (hnetc : m2.network c = m.network c) :
    cluster_step m2 lstm_out target c orig loss outputs =
      cluster_step m lstm_out target c orig loss outputs := by
  unfold cluster_step
  rw [hnetc, hls, hnp]

theorem run_clusters_congr {m m2 : ClusteringLSTM} {lstm_out : Tensor3}
    {target : Option (List Nat)}
    (hls : m2.log_softmax = m.log_softmax)
    (hnp : m2.num_pred = m.num_pred) :
    ∀ {pairs : List (Nat × List Nat)} {loss : ℚ}
      {outputs : List (List Nat)},
      (∀ p ∈ pairs, p.2 ≠ [] → m2.network p.1 = m.network p.1) →
      run_clusters m2 lstm_out target pairs loss outputs =
        run_clusters m lstm_out target pairs loss outputs := by
  intro pairs
  induction pairs with
  | nil => intro loss outputs _; rfl
  | cons head rest ih =>
    intro loss outputs hn
    rcases head with ⟨c, orig⟩
    unfold run_clusters
    by_cases horig : orig = []
    · rw [if_pos horig, if_pos horig]
      exact ih (fun p hp => hn p (List.mem_cons_of_mem _ hp))
    · rw [if_neg horig, if_neg horig,
        cluster_step_congr hls hnp
          (hn (c, orig) (List.mem_cons_self _ _) horig)]
      cases cluster_step m lstm_out target c orig loss outputs with
      | none => rfl
      | some q => exact ih (fun p hp => hn p (List.mem_cons_of_mem _ hp))

theorem zip_range_map {α : Type} (f : Nat → α) (n : Nat) :
    (List.range n).zip ((List.range n).map f) =
      (List.range n).map (fun c => (c, f c)) := by
  nth_rewrite 1 [← List.map_id (List.range n)]
  rw [List.zip_map']
  rfl

theorem mem_pairs {n : Nat} {clusters : List Nat} {p : Nat × List Nat}
    (hp : p ∈ (List.range n).zip (cluster_indices n clusters)) :
    p.1 < n ∧ p.2 =
      (clusters.enum.filter (fun q => q.2 == p.1)).map Prod.fst := by
  rw [cluster_indices, zip_range_map] at hp
  rcases List.mem_map.mp hp with ⟨c, hc, rfl⟩
  exact ⟨List.mem_range.mp hc, rfl⟩

theorem pairs_mem_of_lt {n : Nat} {clusters : List Nat} {c : Nat}
    (hc : c < n) :
    (c, (clusters.enum.filter (fun q => q.2 == c)).map Prod.fst) ∈
      (List.range n).zip (cluster_indices n clusters) := by
  rw [cluster_indices, zip_range_map]
  exact List.mem_map.mpr ⟨c, List.mem_range.mpr hc, rfl⟩

theorem orig_lt_of_mem {clusters : List Nat} {c i : Nat}
    (hi : i ∈ (clusters.enum.filter (fun q => q.2 == c)).map Prod.fst) :
    i < clusters.length := by
  rcases List.mem_map.mp hi with ⟨q, hq, he⟩
  have hqe : q ∈ clusters.enum := List.mem_of_mem_filter hq
  have hfst : q.1 ∈ clusters.enum.map Prod.fst :=
    List.mem_map.mpr ⟨q, hqe, rfl⟩
  rw [List.enum_map_fst] at hfst
  exact he ▸ List.mem_range.mp hfst

theorem orig_ne_nil_iff {clusters : List Nat} {c : Nat} :
    (clusters.enum.filter (fun q => q.2 == c)).map Prod.fst ≠ [] ↔
      c ∈ clusters := by
  rw [Ne, List.map_eq_nil_iff, List.filter_eq_nil_iff]
  constructor
  · intro h
    by_contra hc2
    apply h
    intro a ha
    simp only [beq_iff_eq]
    intro hac
    have hmem : a.2 ∈ clusters.enum.map Prod.snd :=
      List.mem_map.mpr ⟨a, ha, rfl⟩
    rw [List.enum_map_snd] at hmem
    exact hc2 (hac ▸ hmem)
  · intro hc2 h
    have hmem : c ∈ clusters.enum.map Prod.snd := by
      rw [List.enum_map_snd]
      exact hc2
    rcases List.mem_map.mp hmem with ⟨q, hq, he⟩
    exact h q hq (by simp [he])

theorem lstm_input_rows (m : ClusteringLSTM) (pc delta : List Nat) :
    ∀ row ∈ lstm_input m pc delta, row.length = 1 := by
  intro row hrow
  rcases List.mem_map.mp hrow with ⟨a, _, he⟩
  rw [← he]
  rfl

theorem lstm_input_length (m : ClusteringLSTM) {pc delta : List Nat}
    (hlen : pc.length = delta.length) :
    (lstm_input m pc delta).length = pc.length := by
  unfold lstm_input
  rw [List.length_map, List.length_zip, List.length_map, List.length_map,
    hlen, Nat.min_self]

theorem lstm_run_facts {m : ClusteringLSTM} (hlstm : LstmShapeOk m)
    (pc delta : List Nat) (lstm_state : Option (Tensor3 × Tensor3))
    (hlen : pc.length = delta.length) :
    (lstm_run m pc delta lstm_state).1.length = pc.length ∧
      (∀ row ∈ (lstm_run m pc delta lstm_state).1, row.length = 1) ∧
      StateShape m (lstm_run m pc delta lstm_state).2 := by
  obtain ⟨h1, h2, h3⟩ := hlstm (lstm_input m pc delta)
    (lstm_state.getD (zero_state m)) (lstm_input_rows m pc delta)
  exact ⟨h1.trans (lstm_input_length m hlen), h2, h3⟩

theorem forward_eq_of_guard (m : ClusteringLSTM)
    (pc delta clusters : List Nat)
    (lstm_state : Option (Tensor3 × Tensor3))
    (target : Option (List Nat))
    (hpc : ∀ i ∈ pc, i < m.num_pc)
    (hdel : ∀ i ∈ delta, i < m.num_input_delta)
    (hlen : pc.length = delta.length)
    (hcl : ∀ c ∈ clusters, c < m.num_clusters) :
    forward m (pc, delta, clusters) lstm_state target =
      (run_clusters m (lstm_run m pc delta lstm_state).1 target
        ((List.range m.num_clusters).zip
          (cluster_indices m.num_clusters clusters))
        0 (List.replicate pc.length (List.replicate m.num_pred 0))).map
        (fun p => (p.1, p.2, (lstm_run m pc delta lstm_state).2)) := by
  unfold forward
  dsimp only
  rw [if_pos]
  refine ⟨?_, ?_, hlen, ?_⟩
  · simp only [List.all_eq_true, decide_eq_true_eq]
    exact hpc
  · simp only [List.all_eq_true, decide_eq_true_eq]
    exact hdel
  · simp only [List.all_eq_true, decide_eq_true_eq]
    exact hcl

theorem forward_some_inv {m : ClusteringLSTM}
    {pc delta clusters : List Nat}
    {lstm_state : Option (Tensor3 × Tensor3)}
    {target : Option (List Nat)} {L : ℚ} {out : List (List Nat)}
    {st : Tensor3 × Tensor3}
    (h : forward m (pc, delta, clusters) lstm_state target =
      some (L, out, st)) :
    (∀ i ∈ pc, i < m.num_pc) ∧
      (∀ i ∈ delta, i < m.num_input_delta) ∧
      pc.length = delta.length ∧
      (∀ c ∈ clusters, c < m.num_clusters) ∧
      run_clusters m (lstm_run m pc delta lstm_state).1 target
        ((List.range m.num_clusters).zip
          (cluster_indices m.num_clusters clusters))
        0 (List.replicate pc.length (List.replicate m.num_pred 0)) =
        some (L, out) ∧
      st = (lstm_run m pc delta lstm_state).2 := by
  unfold forward at h
  dsimp only at h
  by_cases hg : pc.all (fun c => c < m.num_pc) ∧
      delta.all (fun c => c < m.num_input_delta) ∧
      pc.length = delta.length ∧
      clusters.all (fun c => c < m.num_clusters)
  · rw [if_pos hg] at h
    obtain ⟨hg1, hg2, hg3, hg4⟩ := hg
    simp only [List.all_eq_true, decide_eq_true_eq] at hg1 hg2 hg4
    rcases Option.map_eq_some'.mp h with ⟨p, hp, he⟩
    have he1 : p.1 = L := congrArg Prod.fst he
    have he2 : p.2 = out := congrArg (fun x => x.2.1) he
    have he3 : (lstm_run m pc delta lstm_state).2 = st :=
      congrArg (fun x => x.2.2) he
    refine ⟨hg1, hg2, hg3, hg4, ?_, he3.symm⟩
    rw [← he1, ← he2, hp]
  · rw [if_neg hg] at h
    cases h

end ClusteringLSTM


/-! ## Claims -/

/-- C2: for every key never added to a Vocabulary, code_of (get_val)
returns exactly size() — the fallback code one past the last valid
code — and this holds both before and after other unrelated keys are
added; the lookup never fails or throws for any key (get_val is a total
function by construction). -/
theorem claim_C2 {K : Type} [DecidableEq K] (v : Vocab K) (k : K)
    (ks : List K) (hv : k ∉ v.keys) (hks : k ∉ ks) :
    v.get_val k = v.size ∧
      (v.add_all ks).get_val k = (v.add_all ks).size :=
  ⟨Vocab.get_val_of_not_mem hv,
   Vocab.get_val_of_not_mem (Vocab.not_mem_keys_add_all hv hks)⟩

/-- Witness for C2: the key 3 was never added to the vocabulary built
from [5, 7], neither before nor after the unrelated key 9 is added. -/
theorem claim_C2_witness :
    (Vocab.ofKeys [5, 7] : Vocab ℕ).get_val 3 =
        (Vocab.ofKeys [5, 7] : Vocab ℕ).size ∧
      ((Vocab.ofKeys [5, 7] : Vocab ℕ).add_all [9]).get_val 3 =
        ((Vocab.ofKeys [5, 7] : Vocab ℕ).add_all [9]).size :=
  claim_C2 (Vocab.ofKeys [5, 7]) 3 [9] (by decide) (by decide)

/-- C3: for every key that has been added to a Vocabulary, code_of
(get_val) is stable — the same key yields the same code, also after
further adds — and key_of (get_key) applied to code_of gives the key
back; for the fallback code size() or any larger code, key_of returns
none rather than crashing. -/
theorem claim_C3 {K : Type} [DecidableEq K] (v : Vocab K) (hw : v.Wf)
    (k : K) (hk : k ∈ v.keys) (ks : List K) (c : Nat) (hc : v.size ≤ c) :
    (v.add_all ks).get_val k = v.get_val k ∧
      v.get_key (v.get_val k) = some k ∧
      v.get_key c = none :=
  ⟨Vocab.get_val_add_all_of_mem ks hk,
   Vocab.get_key_get_val_of_mem hw hk,
   Vocab.get_key_of_le hw hc⟩

/-- Witness for C3: key 6 of the vocabulary built from [4, 6] keeps its
code after [8, 4] are added, round-trips through get_key, and the
fallback code 2 = size has no key. -/
theorem claim_C3_witness :
    ((Vocab.ofKeys [4, 6] : Vocab ℕ).add_all [8, 4]).get_val 6 =
        (Vocab.ofKeys [4, 6] : Vocab ℕ).get_val 6 ∧
      (Vocab.ofKeys [4, 6] : Vocab ℕ).get_key
          ((Vocab.ofKeys [4, 6] : Vocab ℕ).get_val 6) = some 6 ∧
      (Vocab.ofKeys [4, 6] : Vocab ℕ).get_key 2 = none :=
  claim_C3 (Vocab.ofKeys [4, 6]) ⟨by decide, by decide, by decide⟩ 6
    (by decide) [8, 4] 2 (by decide)

/-- C4: for every Vocabulary reachable by adds from an empty one, the
assigned codes are a permutation of the range 0..size-1 with no gaps
and no duplicates, and each key maps to exactly one code (the key
column has no duplicates); add_key assigns an unseen key the next
sequential code size() and increments size, and a repeated add_key
leaves the whole vocabulary unchanged. -/
theorem claim_C4 {K : Type} [DecidableEq K] (ks : List K) (k : K)
    (hk : k ∉ (Vocab.ofKeys ks).keys) :
    ((Vocab.ofKeys ks).key_to_val.map Prod.snd).Perm
        (List.range (Vocab.ofKeys ks).size) ∧
      ((Vocab.ofKeys ks).keys).Nodup ∧
      ((Vocab.ofKeys ks).add_key k).get_val k = (Vocab.ofKeys ks).size ∧
      ((Vocab.ofKeys ks).add_key k).size = (Vocab.ofKeys ks).size + 1 ∧
      ((Vocab.ofKeys ks).add_key k).add_key k =
        (Vocab.ofKeys ks).add_key k := by
  obtain ⟨h1, h2, h3⟩ := Vocab.wf_ofKeys (K := K) ks
  obtain ⟨h4, h5⟩ := Vocab.get_val_add_key_self hk
  exact ⟨by rw [Vocab.size, h1], h3, h4, h5, Vocab.add_key_idem _ k⟩

/-- C5: the input-delta vocabulary of build_vocabs admits exactly the
input-delta values whose frequency count is at least 10 — no key with a
smaller count is admitted and every key with count at least 10 is — and
the admitted keys are ordered by descending frequency. -/
theorem claim_C5 {K : Type} [DecidableEq K] (data : List (Row K))
    (hasCluster : Bool) (nc nd : Nat) (k : K) :
    (k ∈ (build_vocabs data hasCluster nc nd).2.1.keys ↔
        10 ≤ (data.map Row.delta_in).count k) ∧
      (build_vocabs data hasCluster nc nd).2.1.keys.Pairwise
        (fun a b => (data.map Row.delta_in).count b ≤
          (data.map Row.delta_in).count a) := by
  have hnd : (((value_counts (data.map Row.delta_in)).filter
      (fun p => 10 ≤ p.2)).map Prod.fst).Nodup :=
    ((List.filter_sublist _).map Prod.fst).nodup
      (value_counts_fst_nodup (data.map Row.delta_in))
  have hdv : (build_vocabs data hasCluster nc nd).2.1.keys =
      ((value_counts (data.map Row.delta_in)).filter
        (fun p => 10 ≤ p.2)).map Prod.fst :=
    Vocab.keys_ofKeys_of_nodup hnd
  rw [hdv]
  constructor
  · constructor
    · intro h
      rcases List.mem_map.mp h with ⟨p, hp, he⟩
      rcases List.mem_filter.mp hp with ⟨hpv, hpc⟩
      have hmv := mem_value_counts.mp hpv
      subst he
      rw [← hmv.2]
      exact of_decide_eq_true hpc
    · intro h
      have hkl : k ∈ data.map Row.delta_in :=
        List.count_pos_iff.mp (by omega)
      exact List.mem_map.mpr ⟨(k, (data.map Row.delta_in).count k),
        List.mem_filter.mpr
          ⟨mem_value_counts.mpr ⟨hkl, rfl⟩, by simpa using h⟩, rfl⟩
  · have hp := List.Pairwise.sublist
      (@List.filter_sublist _ (fun p => decide (10 ≤ p.2))
        (value_counts (data.map Row.delta_in)))
      (value_counts_sorted (data.map Row.delta_in))
    rw [List.pairwise_map]
    refine List.Pairwise.imp_of_mem ?_ hp
    intro p q hpm hqm hr
    have hpv := mem_value_counts.mp (List.mem_filter.mp hpm).1
    have hqv := mem_value_counts.mp (List.mem_filter.mp hqm).1
    rw [← hpv.2, ← hqv.2]
    exact hr

/-- C6: with cluster labels present, build_vocabs returns an ordered
sequence of num_clusters output vocabularies; the one at cluster index c
is built only from the rows with cluster label c, its size is capped by
num_output_deltas, a cluster with at most that many distinct values
admits all of them, and every admitted value is at least as frequent
within the cluster as any value of the cluster left out; without cluster
labels a single vocabulary over the whole training set obeys the same
rule. -/
theorem claim_C6 {K : Type} [DecidableEq K] (data : List (Row K))
    (nc nd c : Nat) (hc : c < nc) (k k2 : K) :
    ∃ vs, (build_vocabs data true nc nd).2.2 = Sum.inl vs ∧
      vs.length = nc ∧
      vs[c]? = some (make_output_vocab
        ((data.filter (fun r => r.cluster == c)).map Row.delta_out) nd) ∧
      (make_output_vocab
        ((data.filter (fun r => r.cluster == c)).map Row.delta_out)
        nd).size ≤ nd ∧
      ((drop_duplicates ((data.filter
          (fun r => r.cluster == c)).map Row.delta_out)).length ≤ nd →
        (k ∈ (make_output_vocab ((data.filter
            (fun r => r.cluster == c)).map Row.delta_out) nd).keys ↔
          k ∈ (data.filter (fun r => r.cluster == c)).map Row.delta_out)) ∧
      (k ∈ (make_output_vocab ((data.filter
          (fun r => r.cluster == c)).map Row.delta_out) nd).keys →
        k2 ∈ (data.filter (fun r => r.cluster == c)).map Row.delta_out →
        k2 ∉ (make_output_vocab ((data.filter
          (fun r => r.cluster == c)).map Row.delta_out) nd).keys →
        ((data.filter (fun r => r.cluster == c)).map
            Row.delta_out).count k2 ≤
          ((data.filter (fun r => r.cluster == c)).map
            Row.delta_out).count k) ∧
      ∃ v0, (build_vocabs data false nc nd).2.2 = Sum.inr v0 ∧
        v0.size ≤ nd ∧
        ((drop_duplicates (data.map Row.delta_out)).length ≤ nd →
          (k ∈ v0.keys ↔ k ∈ data.map Row.delta_out)) := by
  refine ⟨(List.range nc).map (fun cluster =>
      make_output_vocab
        ((data.filter (fun r => r.cluster == cluster)).map Row.delta_out)
        nd),
    ?_, by simp, ?_, size_make_output_vocab_le _ _,
    fun h => mem_make_output_vocab_of_le h,
    fun h1 h2 h3 => count_le_of_mem_make_output_vocab h1 h2 h3,
    make_output_vocab (data.map Row.delta_out) nd, ?_,
    size_make_output_vocab_le _ _,
    fun h => mem_make_output_vocab_of_le h⟩
  · rfl
  · rw [List.getElem?_map, List.getElem?_range hc]
    rfl
  · rfl

/-- Witness for C6: the crafted sample data, two clusters, cap 1; in
cluster 0 the value 5 (count 2) is admitted and 7 (count 1) is not. -/
theorem claim_C6_witness :
    ∃ vs, (build_vocabs sample_rows true 2 1).2.2 = Sum.inl vs ∧
      vs.length = 2 ∧
      vs[0]? = some (make_output_vocab
        ((sample_rows.filter (fun r => r.cluster == 0)).map
          Row.delta_out) 1) ∧
      (make_output_vocab
        ((sample_rows.filter (fun r => r.cluster == 0)).map
          Row.delta_out) 1).size ≤ 1 ∧
      ((drop_duplicates ((sample_rows.filter
          (fun r => r.cluster == 0)).map Row.delta_out)).length ≤ 1 →
        (5 ∈ (make_output_vocab ((sample_rows.filter
            (fun r => r.cluster == 0)).map Row.delta_out) 1).keys ↔
          5 ∈ (sample_rows.filter (fun r => r.cluster == 0)).map
            Row.delta_out)) ∧
      (5 ∈ (make_output_vocab ((sample_rows.filter
          (fun r => r.cluster == 0)).map Row.delta_out) 1).keys →
        7 ∈ (sample_rows.filter (fun r => r.cluster == 0)).map
          Row.delta_out →
        7 ∉ (make_output_vocab ((sample_rows.filter
          (fun r => r.cluster == 0)).map Row.delta_out) 1).keys →
        ((sample_rows.filter (fun r => r.cluster == 0)).map
            Row.delta_out).count 7 ≤
          ((sample_rows.filter (fun r => r.cluster == 0)).map
            Row.delta_out).count 5) ∧
      ∃ v0, (build_vocabs sample_rows false 2 1).2.2 = Sum.inr v0 ∧
        v0.size ≤ 1 ∧
        ((drop_duplicates (sample_rows.map Row.delta_out)).length ≤ 1 →
          (5 ∈ v0.keys ↔ 5 ∈ sample_rows.map Row.delta_out)) :=
  claim_C6 sample_rows 2 1 0 (by decide) 5 7

open ClusteringLSTM in
/-- C10: forward's top-k selection has the unstated precondition that
num_pred is at most the head output width of every cluster that receives
a position in the batch: with no target, forward succeeds exactly when
every routed cluster satisfies it, and if any routed cluster's head
width is smaller than num_pred, forward fails (returns none, standing
for the raised topk exception) instead of returning a prediction
tensor — for any target. -/
theorem claim_C10 (m : ClusteringLSTM)
    (hnet : NetworkShapeOk m) (hls : LogSoftmaxShapeOk m)
    (hlstm : LstmShapeOk m)
    (pc delta clusters : List Nat)
    (lstm_state : Option (Tensor3 × Tensor3))
    (target : Option (List Nat))
    (hpc : ∀ i ∈ pc, i < m.num_pc)
    (hdel : ∀ i ∈ delta, i < m.num_input_delta)
    (hlen : pc.length = delta.length)
    (hcl : ∀ c ∈ clusters, c < m.num_clusters)
    (hclen : clusters.length = pc.length) :
    ((forward m (pc, delta, clusters) lstm_state none).isSome ↔
      ∀ c ∈ clusters, m.num_pred ≤ m.num_output_delta.getD c 0) ∧
    ((∃ c ∈ clusters, m.num_output_delta.getD c 0 < m.num_pred) →
      forward m (pc, delta, clusters) lstm_state target = none) := by
  obtain ⟨hlout_len, hlout_rows, _⟩ :=
    lstm_run_facts hlstm pc delta lstm_state hlen
  have hroute : ∀ (tgt : Option (List Nat)) r,
      run_clusters m (lstm_run m pc delta lstm_state).1 tgt
        ((List.range m.num_clusters).zip
          (cluster_indices m.num_clusters clusters))
        0 (List.replicate pc.length (List.replicate m.num_pred 0)) =
        some r →
      ∀ c ∈ clusters, m.num_pred ≤ m.num_output_delta.getD c 0 := by
    intro tgt r hrun c hcm
    exact run_clusters_some_routed hnet hls
      (fun p hp => (mem_pairs hp).1) hrun _
      (pairs_mem_of_lt (hcl c hcm)) (orig_ne_nil_iff.mpr hcm)
  constructor
  · constructor
    · intro hsome
      rcases Option.isSome_iff_exists.mp hsome with ⟨r, hr⟩
      rcases r with ⟨L, out, st⟩
      obtain ⟨_, _, _, _, hrun, _⟩ := forward_some_inv hr
      exact hroute none (L, out) hrun
    · intro hok
      rw [forward_eq_of_guard m pc delta clusters lstm_state none hpc
        hdel hlen hcl, Option.isSome_map']
      apply run_clusters_isSome hlout_rows hnet hls
      intro p hp
      obtain ⟨hp1, hp2⟩ := mem_pairs hp
      refine ⟨hp1, ?_, ?_, trivial⟩
      · intro i hi
        have hi2 : i < clusters.length := orig_lt_of_mem (hp2 ▸ hi)
        omega
      · intro hpne
        exact hok p.1 (orig_ne_nil_iff.mp (hp2 ▸ hpne))
  · rintro ⟨c, hcm, hlt⟩
    cases hfwd : forward m (pc, delta, clusters) lstm_state target with
    | none => rfl
    | some r =>
      rcases r with ⟨L, out, st⟩
      obtain ⟨_, _, _, _, hrun, _⟩ := forward_some_inv hfwd
      have hge := hroute target (L, out) hrun c hcm
      omega

open ClusteringLSTM in
/-- C1: a cluster index with zero positions in the batch is skipped
unconditionally and side-effect-free: the whole result of forward —
success or failure included — is unchanged when that cluster's head is
replaced by an arbitrary function (so the head is never invoked and
contributes neither loss nor output); and positions routed to no
cluster keep the caller-supplied default zero rows of the output
tensor. -/
theorem claim_C1 (m : ClusteringLSTM) (kcl : Nat)
    (f : Nat → Tensor1 → Tensor1) (pc delta clusters : List Nat)
    (lstm_state : Option (Tensor3 × Tensor3)) (target : Option (List Nat))
    (hk : ∀ c ∈ clusters, c ≠ kcl) :
    forward
        { m with network := fun c => if c = kcl then f c else m.network c }
        (pc, delta, clusters) lstm_state target =
      forward m (pc, delta, clusters) lstm_state target ∧
    (∀ L out st,
      forward m (pc, delta, clusters) lstm_state target =
        some (L, out, st) →
      ∀ i, clusters.length ≤ i →
        out[i]? =
          (List.replicate pc.length (List.replicate m.num_pred 0))[i]?) := by
  constructor
  · set m2 : ClusteringLSTM :=
      { m with network := fun c => if c = kcl then f c else m.network c }
      with hm2
    by_cases hg : (∀ i ∈ pc, i < m.num_pc) ∧
        (∀ i ∈ delta, i < m.num_input_delta) ∧
        pc.length = delta.length ∧
        (∀ c ∈ clusters, c < m.num_clusters)
    · obtain ⟨hg1, hg2, hg3, hg4⟩ := hg
      rw [forward_eq_of_guard m2 pc delta clusters lstm_state target hg1
          hg2 hg3 hg4,
        forward_eq_of_guard m pc delta clusters lstm_state target hg1
          hg2 hg3 hg4]
      have hagree : ∀ p ∈ (List.range m2.num_clusters).zip
          (cluster_indices m2.num_clusters clusters), p.2 ≠ [] →
          m2.network p.1 = m.network p.1 := by
        intro p hp hpne
        have h2 := (mem_pairs hp).2
        have h3 : p.1 ∈ clusters := orig_ne_nil_iff.mp (h2 ▸ hpne)
        show (if p.1 = kcl then f p.1 else m.network p.1) = m.network p.1
        rw [if_neg (hk p.1 h3)]
      rw [@run_clusters_congr m m2 _ target rfl rfl _ _ _ hagree]
      rfl
    · have hgb2 : ¬(pc.all (fun c => c < m2.num_pc) ∧
          delta.all (fun c => c < m2.num_input_delta) ∧
          pc.length = delta.length ∧
          clusters.all (fun c => c < m2.num_clusters)) := by
        intro hc
        apply hg
        obtain ⟨h1, h2, h3, h4⟩ := hc
        simp only [List.all_eq_true, decide_eq_true_eq] at h1 h2 h4
        exact ⟨h1, h2, h3, h4⟩
      have hgb : ¬(pc.all (fun c => c < m.num_pc) ∧
          delta.all (fun c => c < m.num_input_delta) ∧
          pc.length = delta.length ∧
          clusters.all (fun c => c < m.num_clusters)) := hgb2
      unfold forward
      dsimp only
      rw [if_neg hgb2, if_neg hgb]
  · intro L out st hfwd i hi
    obtain ⟨_, _, _, _, hrun, _⟩ := forward_some_inv hfwd
    apply run_clusters_getElem?_untouched hrun
    intro p hp hmem
    have h2 := (mem_pairs hp).2
    have h3 := orig_lt_of_mem (h2 ▸ hmem)
    omega

open ClusteringLSTM in
/-- Witness for C1: in the scenario batch the clusters 0 and 1 are
empty; replacing the head of cluster 0 changes nothing. -/
theorem claim_C1_witness :
    forward
        { test_model with network := fun c =>
          if c = 0 then (fun _ _ => []) c else test_model.network c }
        ([0, 1, 2, 3], [3, 2, 1, 0], [2, 3, 4, 5]) none none =
      forward test_model ([0, 1, 2, 3], [3, 2, 1, 0], [2, 3, 4, 5])
        none none ∧
    (∀ L out st,
      forward test_model ([0, 1, 2, 3], [3, 2, 1, 0], [2, 3, 4, 5])
        none none = some (L, out, st) →
      ∀ i, ([2, 3, 4, 5] : List Nat).length ≤ i →
        out[i]? =
          (List.replicate ([0, 1, 2, 3] : List Nat).length
            (List.replicate test_model.num_pred 0))[i]?) :=
  claim_C1 test_model 0 (fun _ _ => []) [0, 1, 2, 3] [3, 2, 1, 0]
    [2, 3, 4, 5] none none (by decide)

open ClusteringLSTM in
/-- C7: when a target is supplied and forward succeeds, the returned
total loss is the sum of the negative-log-likelihood losses computed
independently on each non-empty cluster's gathered subset of
log-probabilities and targets (over zero contributing clusters the sum
is empty and the loss is 0); with no target the returned loss is 0. -/
theorem claim_C7 (m : ClusteringLSTM) (pc delta clusters : List Nat)
    (lstm_state : Option (Tensor3 × Tensor3)) (t : List Nat) :
    (∀ L out st,
      forward m (pc, delta, clusters) lstm_state (some t) =
        some (L, out, st) →
      ∃ ls, ((((List.range m.num_clusters).zip
            (cluster_indices m.num_clusters clusters)).filter
            (fun p => !p.2.isEmpty)).mapM
          (fun p => cluster_loss m (lstm_run m pc delta lstm_state).1 t
            p.1 p.2)) = some ls ∧ L = ls.sum) ∧
    (∀ L2 out2 st2,
      forward m (pc, delta, clusters) lstm_state none =
        some (L2, out2, st2) → L2 = 0) := by
  constructor
  · intro L out st hfwd
    obtain ⟨_, _, _, _, hrun, _⟩ := forward_some_inv hfwd
    obtain ⟨ls, hls, he⟩ := run_clusters_loss_sum hrun
    refine ⟨ls, hls, ?_⟩
    have he2 : (L, out).1 = 0 + ls.sum := he
    simpa using he2
  · intro L2 out2 st2 hfwd2
    obtain ⟨_, _, _, _, hrun2, _⟩ := forward_some_inv hfwd2
    have he2 : (L2, out2).1 = 0 := run_clusters_loss_none hrun2
    exact he2

open ClusteringLSTM in
/-- C9: predict is forward with no target, projected to (predictions,
updated state): the same predictions and the same recurrent state, no
loss returned — and the loss forward would have computed is 0 anyway.
(The torch.no_grad wrapper only disables gradient bookkeeping, which has
no observable effect on the returned values.) -/
theorem claim_C9 (m : ClusteringLSTM)
    (X : List Nat × List Nat × List Nat)
    (lstm_state : Option (Tensor3 × Tensor3)) :
    predict m X lstm_state =
      (forward m X lstm_state none).map (fun r => (r.2.1, r.2.2)) ∧
    ∀ L out st, forward m X lstm_state none = some (L, out, st) →
      L = 0 ∧ predict m X lstm_state = some (out, st) := by
  refine ⟨rfl, ?_⟩
  intro L out st hfwd
  obtain ⟨pc, delta, clusters⟩ := X
  obtain ⟨_, _, _, _, hrun, _⟩ := forward_some_inv hfwd
  have he : (L, out).1 = 0 := run_clusters_loss_none hrun
  refine ⟨he, ?_⟩
  unfold predict
  rw [hfwd]
  rfl

open ClusteringLSTM in
/-- Witness for C9: the prediction-only contract on the scenario
batch. -/
theorem claim_C9_witness :
    predict test_model ([0, 1, 2, 3], [3, 2, 1, 0], [2, 3, 4, 5]) none =
      (forward test_model ([0, 1, 2, 3], [3, 2, 1, 0], [2, 3, 4, 5])
        none none).map (fun r => (r.2.1, r.2.2)) ∧
    ∀ L out st,
      forward test_model ([0, 1, 2, 3], [3, 2, 1, 0], [2, 3, 4, 5])
        none none = some (L, out, st) →
      L = 0 ∧ predict test_model ([0, 1, 2, 3], [3, 2, 1, 0], [2, 3, 4, 5])
        none = some (out, st) :=
  claim_C9 test_model ([0, 1, 2, 3], [3, 2, 1, 0], [2, 3, 4, 5]) none

/-- Shape contract facts for the placeholder instance test_model. -/
theorem test_model_network_ok : ClusteringLSTM.NetworkShapeOk test_model := by
  intro c hc v
  have hc6 : c < 6 := hc
  interval_cases c <;> rfl

theorem test_model_log_softmax_ok :
    ClusteringLSTM.LogSoftmaxShapeOk test_model := by
  intro v
  exact List.length_map v _

theorem test_model_lstm_ok : ClusteringLSTM.LstmShapeOk test_model := by
  intro input state _
  refine ⟨List.length_map input _, ?_, ?_⟩
  · intro row hrow
    rcases List.mem_map.mp hrow with ⟨a, _, he⟩
    rw [← he]
    rfl
  · refine ⟨rfl, rfl, ?_, ?_⟩ <;>
    · intro row hrow
      rw [List.eq_of_mem_replicate hrow]
      exact ⟨rfl, fun v hv => by rw [List.mem_singleton.mp hv]; rfl⟩

open ClusteringLSTM in
/-- C8: on the scenario of 4 positions with PC codes [0,1,2,3], delta
codes [3,2,1,0], cluster labels [2,3,4,5] over six clusters of head
width 4 and num_pred 2 (the test_net architecture, any weights obeying
the torch shape contracts), forward succeeds with targets [0,1,2,3],
returns a (4, 2) prediction tensor and a scalar loss (every rational is
finite), the state has shape (num_layers, 1, hidden_dim) for hidden and
cell, and feeding the returned state into a second identical call
succeeds with the same shapes. -/
theorem claim_C8 (m : ClusteringLSTM)
    (hnp : m.num_pred = 2)
    (hw : m.num_output_delta = [4, 4, 4, 4, 4, 4])
    (hnl : m.num_layers = 2) (hh : m.hidden_dim = 30)
    (hpcn : m.num_pc = 4) (hdeln : m.num_input_delta = 4)
    (hnet : NetworkShapeOk m) (hls : LogSoftmaxShapeOk m)
    (hlstm : LstmShapeOk m) :
    ∃ L preds st,
      forward m ([0, 1, 2, 3], [3, 2, 1, 0], [2, 3, 4, 5]) none
          (some [0, 1, 2, 3]) = some (L, preds, st) ∧
      preds.length = 4 ∧ (∀ r ∈ preds, r.length = 2) ∧
      StateShape m st ∧
      ∃ L2 preds2 st2,
        forward m ([0, 1, 2, 3], [3, 2, 1, 0], [2, 3, 4, 5]) (some st)
            (some [0, 1, 2, 3]) = some (L2, preds2, st2) ∧
        preds2.length = 4 ∧ (∀ r ∈ preds2, r.length = 2) ∧
        StateShape m st2 := by
  have hnc : m.num_clusters = 6 := by
    unfold ClusteringLSTM.num_clusters
    rw [hw]
    rfl
  have hwidth : ∀ c, c < 6 → m.num_output_delta.getD c 0 = 4 := by
    intro c hc
    rw [hw]
    interval_cases c <;> rfl
  have key : ∀ st0 : Option (Tensor3 × Tensor3),
      ∃ L preds st,
        forward m ([0, 1, 2, 3], [3, 2, 1, 0], [2, 3, 4, 5]) st0
            (some [0, 1, 2, 3]) = some (L, preds, st) ∧
        preds.length = 4 ∧ (∀ r ∈ preds, r.length = 2) ∧
        StateShape m st := by
    intro st0
    have hpc : ∀ i ∈ ([0, 1, 2, 3] : List Nat), i < m.num_pc := by
      rw [hpcn]
      decide
    have hdel : ∀ i ∈ ([3, 2, 1, 0] : List Nat), i < m.num_input_delta :=
      by
      rw [hdeln]
      decide
    have hcl : ∀ c ∈ ([2, 3, 4, 5] : List Nat), c < m.num_clusters := by
      rw [hnc]
      decide
    obtain ⟨hlen1, hrows1, hstate1⟩ :=
      lstm_run_facts hlstm [0, 1, 2, 3] [3, 2, 1, 0] st0 rfl
    have hcond : ∀ p ∈ (List.range m.num_clusters).zip
        (cluster_indices m.num_clusters [2, 3, 4, 5]),
        p.1 < m.num_clusters ∧
        (∀ i ∈ p.2, i <
          (lstm_run m [0, 1, 2, 3] [3, 2, 1, 0] st0).1.length) ∧
        (p.2 ≠ [] → m.num_pred ≤ m.num_output_delta.getD p.1 0) ∧
        TargetOk m (some [0, 1, 2, 3]) p.1 p.2 := by
      intro p hp
      obtain ⟨hp1, hp2⟩ := mem_pairs hp
      have hp6 : p.1 < 6 := by
        rw [hnc] at hp1
        exact hp1
      have hwp : m.num_output_delta.getD p.1 0 = 4 := hwidth p.1 hp6
      refine ⟨hp1, ?_, ?_, ?_⟩
      · intro i hi
        have hi4 : i < ([2, 3, 4, 5] : List Nat).length :=
          orig_lt_of_mem (hp2 ▸ hi)
        have h4a : ([2, 3, 4, 5] : List Nat).length = 4 := rfl
        have h4b : ([0, 1, 2, 3] : List Nat).length = 4 := rfl
        rw [hlen1, h4b]
        rw [h4a] at hi4
        exact hi4
      · intro _
        rw [hnp, hwp]
        decide
      · intro i hi
        have hi4 : i < 4 := by
          have hi5 := orig_lt_of_mem (hp2 ▸ hi)
          simpa using hi5
        interval_cases i
        · exact ⟨0, rfl, by rw [hwp]; decide⟩
        · exact ⟨1, rfl, by rw [hwp]; decide⟩
        · exact ⟨2, rfl, by rw [hwp]; decide⟩
        · exact ⟨3, rfl, by rw [hwp]; decide⟩
    have hrs := run_clusters_isSome hrows1 hnet hls
      ((List.range m.num_clusters).zip
        (cluster_indices m.num_clusters [2, 3, 4, 5])) 0
      (List.replicate ([0, 1, 2, 3] : List Nat).length
        (List.replicate m.num_pred 0)) hcond
    rcases Option.isSome_iff_exists.mp hrs with ⟨r, hr⟩
    refine ⟨r.1, r.2, (lstm_run m [0, 1, 2, 3] [3, 2, 1, 0] st0).2, ?_,
      ?_, ?_, hstate1⟩
    · rw [forward_eq_of_guard m [0, 1, 2, 3] [3, 2, 1, 0] [2, 3, 4, 5]
        st0 (some [0, 1, 2, 3]) hpc hdel rfl hcl, hr]
      rfl
    · have hl := (run_clusters_outputs_inv hr).1
      rw [hl]
      rfl
    · intro row hrow
      rcases (run_clusters_outputs_inv hr).2 row hrow with h1 | h1
      · have hre := List.eq_of_mem_replicate h1
        rw [hre, List.length_replicate, hnp]
      · rw [h1, hnp]
  obtain ⟨L, preds, st, h1, h2, h3, h4⟩ := key none
  obtain ⟨L2, preds2, st2, h5, h6, h7, h8⟩ := key (some st)
  exact ⟨L, preds, st, h1, h2, h3, h4, L2, preds2, st2, h5, h6, h7, h8⟩

open ClusteringLSTM in
/-- Witness for C10: the test_net architecture on the scenario batch;
every routed cluster has head width 4 and num_pred is 2. -/
theorem claim_C10_witness :
    ((forward test_model ([0, 1, 2, 3], [3, 2, 1, 0], [2, 3, 4, 5])
        none none).isSome ↔
      ∀ c ∈ [2, 3, 4, 5], test_model.num_pred ≤
        test_model.num_output_delta.getD c 0) ∧
    ((∃ c ∈ [2, 3, 4, 5],
        test_model.num_output_delta.getD c 0 < test_model.num_pred) →
      forward test_model ([0, 1, 2, 3], [3, 2, 1, 0], [2, 3, 4, 5])
        none none = none) :=
  claim_C10 test_model test_model_network_ok test_model_log_softmax_ok
    test_model_lstm_ok [0, 1, 2, 3] [3, 2, 1, 0] [2, 3, 4, 5] none none
    (by decide) (by decide) rfl (by decide) rfl

open ClusteringLSTM in
/-- Witness for C8: the scenario run on the placeholder test_net
instance. -/
theorem claim_C8_witness :
    ∃ L preds st,
      forward test_model ([0, 1, 2, 3], [3, 2, 1, 0], [2, 3, 4, 5]) none
          (some [0, 1, 2, 3]) = some (L, preds, st) ∧
      preds.length = 4 ∧ (∀ r ∈ preds, r.length = 2) ∧
      StateShape test_model st ∧
      ∃ L2 preds2 st2,
        forward test_model ([0, 1, 2, 3], [3, 2, 1, 0], [2, 3, 4, 5])
            (some st) (some [0, 1, 2, 3]) = some (L2, preds2, st2) ∧
        preds2.length = 4 ∧ (∀ r ∈ preds2, r.length = 2) ∧
        StateShape test_model st2 :=
  claim_C8 test_model rfl rfl rfl rfl rfl rfl test_model_network_ok
    test_model_log_softmax_ok test_model_lstm_ok

open ClusteringLSTM in
/-- Witness for C7: the scenario batch on the placeholder instance. -/
theorem claim_C7_witness :
    (∀ L out st,
      forward test_model ([0, 1, 2, 3], [3, 2, 1, 0], [2, 3, 4, 5]) none
          (some [0, 1, 2, 3]) = some (L, out, st) →
      ∃ ls, ((((List.range test_model.num_clusters).zip
            (cluster_indices test_model.num_clusters [2, 3, 4, 5])).filter
            (fun p => !p.2.isEmpty)).mapM
          (fun p => cluster_loss test_model
            (lstm_run test_model [0, 1, 2, 3] [3, 2, 1, 0] none).1
            [0, 1, 2, 3] p.1 p.2)) = some ls ∧ L = ls.sum) ∧
    (∀ L2 out2 st2,
      forward test_model ([0, 1, 2, 3], [3, 2, 1, 0], [2, 3, 4, 5]) none
        none = some (L2, out2, st2) → L2 = 0) :=
  claim_C7 test_model [0, 1, 2, 3] [3, 2, 1, 0] [2, 3, 4, 5] none
    [0, 1, 2, 3]

/-- Witness for C4: the vocabulary built from [3, 3, 5] (with the
duplicate 3) and the fresh key 7. -/
theorem claim_C4_witness :
    ((Vocab.ofKeys [3, 3, 5] : Vocab ℕ).key_to_val.map Prod.snd).Perm
        (List.range (Vocab.ofKeys [3, 3, 5] : Vocab ℕ).size) ∧
      ((Vocab.ofKeys [3, 3, 5] : Vocab ℕ).keys).Nodup ∧
      ((Vocab.ofKeys [3, 3, 5] : Vocab ℕ).add_key 7).get_val 7 =
        (Vocab.ofKeys [3, 3, 5] : Vocab ℕ).size ∧
      ((Vocab.ofKeys [3, 3, 5] : Vocab ℕ).add_key 7).size =
        (Vocab.ofKeys [3, 3, 5] : Vocab ℕ).size + 1 ∧
      ((Vocab.ofKeys [3, 3, 5] : Vocab ℕ).add_key 7).add_key 7 =
        (Vocab.ofKeys [3, 3, 5] : Vocab ℕ).add_key 7 :=
  claim_C4 [3, 3, 5] 7 (by decide)

end MLPrefetcher
